import Mathlib

/-!
Verification of the component dependency graph and resolution engine of
`htmpl-template` (source: `template/.../services/htmpl_admin/graph.py`).

Python strings are modelled as Lean `String` (lists of characters); file
bytes are modelled as `List Nat` with values below 256.  The rdflib triple
store is modelled as a list of subject/predicate/object statements, and the
SPARQL queries of the source are translated into explicit set computations
over those statements (the `+` property path becomes a fuel-bounded,
visited-set-guarded reachability computation proved equivalent to
`Relation.TransGen`).
-/

namespace Htmpl

/-! ### Feature-flag extraction (`extract_config_key`)

The source matches the regular expression
`JINJA_CONDITIONAL_RE` (a jinja if/endif conditional with a single word
group) using `re.search` and returns group 1.  The matcher below is a
direct operational embedding of that regular expression: the whitespace and
word classes are the ASCII ones, `search` tries every start position from
the left, and the dot does not match a newline.  Greedy munching of the
repeated classes is exact here because each repeated class is disjoint from
the character that must follow it, so the engine never backtracks into a
shorter repetition. -/

def isWordChar (c : Char) : Bool :=
  ('a' ≤ c && c ≤ 'z') || ('A' ≤ c && c ≤ 'Z') || ('0' ≤ c && c ≤ '9') || c = '_'

def isSpaceChar (c : Char) : Bool :=
  c = ' ' || c = '\t' || c = '\n' || c = '\x0d' || c = '\x0b' || c = '\x0c'

/-- Match the opening conditional marker (open brace, percent, `if`,
mandatory whitespace, a word group, optional whitespace, percent, close
brace) at the head of the list; return the captured word and the remaining
characters. -/
def matchIfMarker (s : List Char) : Option (List Char × List Char) :=
  match s with
  | '\x7b' :: '%' :: r1 =>
    match r1.dropWhile isSpaceChar with
    | 'i' :: 'f' :: c :: r3 =>
      if isSpaceChar c then
        if (r3.dropWhile isSpaceChar).takeWhile isWordChar = [] then none
        else
          match ((r3.dropWhile isSpaceChar).dropWhile isWordChar).dropWhile isSpaceChar with
          | '%' :: '\x7d' :: r7 => some ((r3.dropWhile isSpaceChar).takeWhile isWordChar, r7)
          | _ => none
      else none
    | _ => none
  | _ => none

/-- Match the closing `endif` marker at the head of the list. -/
def matchEndifMarker (s : List Char) : Bool :=
  match s with
  | '\x7b' :: '%' :: r1 =>
    match r1.dropWhile isSpaceChar with
    | 'e' :: 'n' :: 'd' :: 'i' :: 'f' :: r2 =>
      match r2.dropWhile isSpaceChar with
      | '%' :: '\x7d' :: _ => true
      | _ => false
    | _ => false
  | _ => false

/-- Realize the lazy dot-star followed by the endif marker: some suffix
position matches the endif marker, with only non-newline characters before
it. -/
def findEndif : List Char → Bool
  | [] => false
  | c :: rest => matchEndifMarker (c :: rest) || (c ≠ '\n' && findEndif rest)

/-- The `re.search` loop: try the whole pattern at each start position,
left to right. -/
def searchConditional : List Char → Option (List Char)
  | [] => none
  | c :: rest =>
    match matchIfMarker (c :: rest) with
    | some (w, r) => if findEndif r then some w else searchConditional rest
    | none => searchConditional rest

/-- Source `extract_config_key`: extract the copier config key from a jinja
conditional directory name, or `none` when the name has no conditional. -/
def extract_config_key (dirname : String) : Option String :=
  (searchConditional dirname.data).map (fun w => ⟨w⟩)

/-! ### Dependency string parsing (`parse_dependency`) -/

/-- Source `parse_dependency`: split a dependency string into
(namespace, value); strings without a colon separator, or starting with a
slash, default to the `htmpl` namespace. -/
def parse_dependency (dep : String) : String × String :=
  if dep.data.contains ':' ∧ dep.data.head? ≠ some '/' then
    (⟨dep.data.takeWhile (fun c => c ≠ ':')⟩,
     ⟨(dep.data.dropWhile (fun c => c ≠ ':')).tail⟩)
  else ("htmpl", dep)

/-! ### Base64 (`base64.b64encode` / `base64.b64decode`)

Library code used by the source for the readme literal; modelled at the
byte level (`List Nat`, each below 256) with the standard alphabet. -/

def b64Char (n : Nat) : Char :=
  if n < 26 then Char.ofNat ('A'.toNat + n)
  else if n < 52 then Char.ofNat ('a'.toNat + (n - 26))
  else if n < 62 then Char.ofNat ('0'.toNat + (n - 52))
  else if n = 62 then '+' else '/'

def b64encode : List Nat → List Char
  | [] => []
  | [a] => [b64Char (a / 4), b64Char (a % 4 * 16), '=', '=']
  | [a, b] => [b64Char (a / 4), b64Char (a % 4 * 16 + b / 16), b64Char (b % 16 * 4), '=']
  | a :: b :: c :: rest =>
    b64Char (a / 4) :: b64Char (a % 4 * 16 + b / 16) ::
      b64Char (b % 16 * 4 + c / 64) :: b64Char (c % 64) :: b64encode rest

def b64CharVal (c : Char) : Option Nat :=
  if 'A' ≤ c ∧ c ≤ 'Z' then some (c.toNat - 'A'.toNat)
  else if 'a' ≤ c ∧ c ≤ 'z' then some (c.toNat - 'a'.toNat + 26)
  else if '0' ≤ c ∧ c ≤ '9' then some (c.toNat - '0'.toNat + 52)
  else if c = '+' then some 62
  else if c = '/' then some 63
  else none

def b64decode : List Char → Option (List Nat)
  | [] => some []
  | c1 :: c2 :: c3 :: c4 :: rest =>
    (b64CharVal c1).bind fun s1 =>
    (b64CharVal c2).bind fun s2 =>
    if c3 = '=' then
      if c4 = '=' ∧ rest = [] then some [s1 * 4 + s2 / 16] else none
    else
      (b64CharVal c3).bind fun s3 =>
      if c4 = '=' then
        if rest = [] then some [s1 * 4 + s2 / 16, s2 % 16 * 16 + s3 / 4] else none
      else
        (b64CharVal c4).bind fun s4 =>
        (b64decode rest).map fun tl =>
          (s1 * 4 + s2 / 16) :: (s2 % 16 * 16 + s3 / 4) :: (s3 % 4 * 64 + s4) :: tl
  | _ => none

theorem b64CharVal_b64Char : ∀ n ∈ List.range 64, b64CharVal (b64Char n) = some n := by
  decide

theorem b64Char_ne_pad : ∀ n ∈ List.range 64, b64Char n ≠ '=' := by
  decide

theorem b64_roundtrip : ∀ bs : List Nat, (∀ b ∈ bs, b < 256) →
    b64decode (b64encode bs) = some bs
  | [], _ => by simp [b64encode, b64decode]
  | [a], h => by
    have ha : a < 256 := h a (by simp)
    have h1 := b64CharVal_b64Char (a / 4) (by simp only [List.mem_range]; omega)
    have h2 := b64CharVal_b64Char (a % 4 * 16) (by simp only [List.mem_range]; omega)
    simp only [b64encode, b64decode, h1, h2, Option.some_bind, if_pos rfl,
      if_pos (And.intro rfl rfl), Option.some.injEq, List.cons.injEq, and_true, ite_true]
    omega
  | [a, b], h => by
    have ha : a < 256 := h a (by simp)
    have hb : b < 256 := h b (by simp)
    have h1 := b64CharVal_b64Char (a / 4) (by simp only [List.mem_range]; omega)
    have h2 := b64CharVal_b64Char (a % 4 * 16 + b / 16) (by simp only [List.mem_range]; omega)
    have h3 := b64CharVal_b64Char (b % 16 * 4) (by simp only [List.mem_range]; omega)
    have hne3 := b64Char_ne_pad (b % 16 * 4) (by simp only [List.mem_range]; omega)
    simp only [b64encode, b64decode, h1, h2, h3, Option.some_bind, if_neg hne3,
      if_pos rfl, Option.some.injEq, List.cons.injEq, and_true, ite_true]
    omega
  | a :: b :: c :: d :: rest, h => by
    have ha : a < 256 := h a (by simp)
    have hb : b < 256 := h b (by simp)
    have hc : c < 256 := h c (by simp)
    have h1 := b64CharVal_b64Char (a / 4) (by simp only [List.mem_range]; omega)
    have h2 := b64CharVal_b64Char (a % 4 * 16 + b / 16) (by simp only [List.mem_range]; omega)
    have h3 := b64CharVal_b64Char (b % 16 * 4 + c / 64) (by simp only [List.mem_range]; omega)
    have h4 := b64CharVal_b64Char (c % 64) (by simp only [List.mem_range]; omega)
    have hne3 := b64Char_ne_pad (b % 16 * 4 + c / 64) (by simp only [List.mem_range]; omega)
    have hne4 := b64Char_ne_pad (c % 64) (by simp only [List.mem_range]; omega)
    have ih := b64_roundtrip (d :: rest) (fun x hx => h x (by simp only [List.mem_cons] at hx ⊢; tauto))
    simp only [b64encode, b64decode, h1, h2, h3, h4, ih, Option.some_bind, if_neg hne3,
      if_neg hne4, Option.map_some', Option.some.injEq, List.cons.injEq, and_true, true_and, ite_true]
    omega
  | [a, b, c], h => by
    have ha : a < 256 := h a (by simp)
    have hb : b < 256 := h b (by simp)
    have hc : c < 256 := h c (by simp)
    have h1 := b64CharVal_b64Char (a / 4) (by simp only [List.mem_range]; omega)
    have h2 := b64CharVal_b64Char (a % 4 * 16 + b / 16) (by simp only [List.mem_range]; omega)
    have h3 := b64CharVal_b64Char (b % 16 * 4 + c / 64) (by simp only [List.mem_range]; omega)
    have h4 := b64CharVal_b64Char (c % 64) (by simp only [List.mem_range]; omega)
    have hne3 := b64Char_ne_pad (b % 16 * 4 + c / 64) (by simp only [List.mem_range]; omega)
    have hne4 := b64Char_ne_pad (c % 64) (by simp only [List.mem_range]; omega)
    simp only [b64encode, b64decode, h1, h2, h3, h4, Option.some_bind, if_neg hne3,
      if_neg hne4, Option.map_some', Option.some.injEq, List.cons.injEq, and_true, ite_true]
    omega

/-! ### Transitive reachability (SPARQL property path `dep:requires+`)

rdflib evaluates the one-or-more property path as a visited-set-guarded
graph walk.  We model it as a monotone saturation of a visited list, with
enough fuel to reach the fixpoint, and prove the result is exactly the set
of nodes reachable through one or more edges (`Relation.TransGen`).  In
particular the walk terminates on cyclic edge lists. -/

section Closure

variable {α : Type} [DecidableEq α]

/-- All successors of members of `S` along edges of `E`. -/
def succsOf (E : List (α × α)) (S : List α) : List α :=
  (E.filter (fun e => decide (e.1 ∈ S))).map Prod.snd

/-- One saturation step: add the unvisited successors. -/
def stepClosure (E : List (α × α)) (S : List α) : List α :=
  S ++ (succsOf E S).dedup.filter (fun y => decide (y ∉ S))

def iterClosure (E : List (α × α)) : Nat → List α → List α
  | 0, S => S
  | n + 1, S => iterClosure E n (stepClosure E S)

/-- Nodes reachable from `u` through at least one edge of `E`. -/
def reachPlus (E : List (α × α)) (u : α) : List α :=
  iterClosure E (E.length + 1) (succsOf E [u]).dedup

/-- The edge relation named by a `dep:requires` edge list. -/
def edgeRel (E : List (α × α)) (a b : α) : Prop := (a, b) ∈ E

theorem mem_succsOf {E : List (α × α)} {S : List α} {y : α} :
    y ∈ succsOf E S ↔ ∃ x ∈ S, (x, y) ∈ E := by
  simp only [succsOf, List.mem_map, List.mem_filter, decide_eq_true_eq]
  constructor
  · rintro ⟨⟨x, y'⟩, ⟨hE, hx⟩, rfl⟩
    exact ⟨x, hx, hE⟩
  · rintro ⟨x, hx, hE⟩
    exact ⟨(x, y), ⟨hE, hx⟩, rfl⟩

theorem subset_stepClosure (E : List (α × α)) (S : List α) : S ⊆ stepClosure E S :=
  List.subset_append_left _ _

theorem succsOf_subset_stepClosure (E : List (α × α)) (S : List α) :
    succsOf E S ⊆ stepClosure E S := by
  intro y hy
  by_cases hS : y ∈ S
  · exact List.mem_append_left _ hS
  · refine List.mem_append_right _ ?_
    simp only [List.mem_filter, List.mem_dedup, decide_eq_true_eq]
    exact ⟨hy, hS⟩

theorem subset_iterClosure (E : List (α × α)) (n : Nat) (S : List α) :
    S ⊆ iterClosure E n S := by
  induction n generalizing S with
  | zero => exact fun y hy => hy
  | succ n ih =>
    exact fun y hy => ih (stepClosure E S) (subset_stepClosure E S hy)

theorem stepClosure_nodup {E : List (α × α)} {S : List α} (h : S.Nodup) :
    (stepClosure E S).Nodup := by
  refine List.Nodup.append h (List.Nodup.filter _ (List.nodup_dedup _)) ?_
  intro y hyS hyF
  simp only [List.mem_filter, decide_eq_true_eq] at hyF
  exact hyF.2 hyS

theorem stepClosure_subset_univ {E : List (α × α)} {S U : List α}
    (hS : S ⊆ U) (hU : ∀ y ∈ E.map Prod.snd, y ∈ U) :
    stepClosure E S ⊆ U := by
  intro y hy
  rcases List.mem_append.mp hy with h | h
  · exact hS h
  · simp only [List.mem_filter, List.mem_dedup, decide_eq_true_eq] at h
    rcases mem_succsOf.mp h.1 with ⟨x, _, hE⟩
    exact hU y (List.mem_map.mpr ⟨(x, y), hE, rfl⟩)

/-- Once every successor is already visited, a step is the identity. -/
theorem stepClosure_eq_of_closed {E : List (α × α)} {S : List α}
    (h : succsOf E S ⊆ S) : stepClosure E S = S := by
  have : (succsOf E S).dedup.filter (fun y => decide (y ∉ S)) = [] := by
    rw [List.filter_eq_nil_iff]
    intro y hy
    simp only [decide_eq_true_eq, not_not]
    exact h (List.mem_dedup.mp hy)
  simp only [stepClosure, this, List.append_nil]

theorem length_lt_stepClosure {E : List (α × α)} {S : List α}
    (h : stepClosure E S ≠ S) : S.length + 1 ≤ (stepClosure E S).length := by
  by_cases hnil : (succsOf E S).dedup.filter (fun y => decide (y ∉ S)) = []
  · exfalso
    exact h (by simp only [stepClosure, hnil, List.append_nil])
  · have hlen : 1 ≤ ((succsOf E S).dedup.filter (fun y => decide (y ∉ S))).length :=
      Nat.one_le_iff_ne_zero.mpr (fun h0 => hnil (List.length_eq_zero.mp h0))
    simp only [stepClosure, List.length_append]
    omega

theorem iterClosure_out (E : List (α × α)) (n : Nat) (S : List α) :
    iterClosure E (n + 1) S = stepClosure E (iterClosure E n S) := by
  induction n generalizing S with
  | zero => rfl
  | succ n ih =>
    show iterClosure E (n + 1) (stepClosure E S) = _
    rw [ih (stepClosure E S)]
    rfl

theorem iterClosure_of_fixed {E : List (α × α)} {S : List α}
    (h : stepClosure E S = S) (n : Nat) : iterClosure E n S = S := by
  induction n with
  | zero => rfl
  | succ n ih => rw [iterClosure_out, ih, h]

theorem iterClosure_add (E : List (α × α)) (m n : Nat) (S : List α) :
    iterClosure E (m + n) S = iterClosure E n (iterClosure E m S) := by
  induction m generalizing S with
  | zero =>
    rw [Nat.zero_add]
    rfl
  | succ m ih =>
    have : m + 1 + n = (m + n) + 1 := by omega
    rw [this]
    show iterClosure E (m + n) (stepClosure E S) = _
    exact ih (stepClosure E S)

theorem iterClosure_nodup {E : List (α × α)} {S : List α} (h : S.Nodup) (n : Nat) :
    (iterClosure E n S).Nodup := by
  induction n generalizing S with
  | zero => exact h
  | succ n ih => exact ih (stepClosure_nodup h)

theorem iterClosure_subset_univ {E : List (α × α)} {S U : List α}
    (hS : S ⊆ U) (hU : ∀ y ∈ E.map Prod.snd, y ∈ U) (n : Nat) :
    iterClosure E n S ⊆ U := by
  induction n generalizing S with
  | zero => exact hS
  | succ n ih => exact ih (stepClosure_subset_univ hS hU)

/-- With fuel `E.length + 1` the saturation has reached a fixpoint. -/
theorem iterClosure_fixed {E : List (α × α)} {S : List α} (hnd : S.Nodup)
    (hsub : S ⊆ (E.map Prod.snd).dedup) :
    stepClosure E (iterClosure E (E.length + 1) S) = iterClosure E (E.length + 1) S := by
  set B := E.length with hB
  have huniv : ∀ y ∈ E.map Prod.snd, y ∈ (E.map Prod.snd).dedup :=
    fun y hy => List.mem_dedup.mpr hy
  by_cases hfix : ∃ k, k ≤ B ∧ stepClosure E (iterClosure E k S) = iterClosure E k S
  · rcases hfix with ⟨k, hk, hfixk⟩
    have hsplit : B + 1 = k + (B + 1 - k) := by omega
    rw [hsplit, iterClosure_add, iterClosure_of_fixed hfixk, hfixk]
  · exfalso
    push_neg at hfix
    have hgrow : ∀ j, j ≤ B + 1 → S.length + j ≤ (iterClosure E j S).length := by
      intro j
      induction j with
      | zero => intro _; exact Nat.le_refl _
      | succ j ih =>
        intro hj
        have hj' : j ≤ B := by omega
        have hne := hfix j hj'
        have h1 := length_lt_stepClosure hne
        have h2 := ih (by omega)
        rw [iterClosure_out]
        omega
    have hlast := hgrow (B + 1) (le_refl _)
    have hnd' : (iterClosure E (B + 1) S).Nodup := iterClosure_nodup hnd _
    have hsub' : iterClosure E (B + 1) S ⊆ (E.map Prod.snd).dedup :=
      iterClosure_subset_univ hsub huniv _
    have hle : (iterClosure E (B + 1) S).length ≤ ((E.map Prod.snd).dedup).length :=
      (List.subperm_of_subset hnd' hsub').length_le
    have hle2 : ((E.map Prod.snd).dedup).length ≤ E.length := by
      calc ((E.map Prod.snd).dedup).length ≤ (E.map Prod.snd).length :=
            (List.dedup_sublist _).length_le
        _ = E.length := List.length_map _ _
    omega

theorem iterClosure_sound {E : List (α × α)} {u : α} {S : List α}
    (h : ∀ x ∈ S, Relation.TransGen (edgeRel E) u x) (n : Nat) :
    ∀ y ∈ iterClosure E n S, Relation.TransGen (edgeRel E) u y := by
  induction n generalizing S with
  | zero => exact h
  | succ n ih =>
    refine ih ?_
    intro y hy
    rcases List.mem_append.mp hy with hyS | hyF
    · exact h y hyS
    · simp only [List.mem_filter, List.mem_dedup, decide_eq_true_eq] at hyF
      rcases mem_succsOf.mp hyF.1 with ⟨x, hxS, hE⟩
      exact Relation.TransGen.tail (h x hxS) hE

/-- `reachPlus` computes exactly the one-or-more-step reachability set:
membership is equivalent to `Relation.TransGen` of the edge relation. -/
theorem mem_reachPlus {E : List (α × α)} {u y : α} :
    y ∈ reachPlus E u ↔ Relation.TransGen (edgeRel E) u y := by
  constructor
  · intro hy
    refine iterClosure_sound ?_ _ y hy
    intro x hx
    rcases mem_succsOf.mp (List.mem_dedup.mp hx) with ⟨z, hz, hE⟩
    rcases List.mem_singleton.mp hz with rfl
    exact Relation.TransGen.single hE
  · intro hTG
    have hS0nd : ((succsOf E [u]).dedup).Nodup := List.nodup_dedup _
    have hS0sub : (succsOf E [u]).dedup ⊆ (E.map Prod.snd).dedup := by
      intro y hy
      rcases mem_succsOf.mp (List.mem_dedup.mp hy) with ⟨x, _, hE⟩
      exact List.mem_dedup.mpr (List.mem_map.mpr ⟨(x, y), hE, rfl⟩)
    have hfix := iterClosure_fixed hS0nd hS0sub
    induction hTG with
    | single h =>
      refine subset_iterClosure E _ _ ?_
      exact List.mem_dedup.mpr (mem_succsOf.mpr ⟨u, List.mem_singleton_self u, h⟩)
    | tail hxz hzy ih =>
      have hz := ih
      have hy : _ ∈ succsOf E (reachPlus E u) := mem_succsOf.mpr ⟨_, hz, hzy⟩
      have := succsOf_subset_stepClosure E (reachPlus E u) hy
      rwa [show stepClosure E (reachPlus E u) = reachPlus E u from hfix] at this

end Closure

/-! ### RDF data model

An rdflib node is either a URI reference (kept structurally as namespace
plus value, e.g. `htmpl://components/auth` is `uriRef "htmpl"
"components/auth"`) or a literal.  The predicates are the fixed vocabulary
the source emits and queries (`htmpl:name`, `htmpl:configKey`,
`htmpl:help`, `htmpl:readme`, `dep:requires`, `dep:python`,
`status:installed`).  A graph is a list of statements. -/

inductive Node where
  | uriRef (ns : String) (val : String)
  | lit (s : String)
  | boolLit (b : Bool)
deriving DecidableEq

inductive Pred where
  | name
  | configKey
  | help
  | readme
  | requires
  | python
  | installed
deriving DecidableEq

structure Triple where
  subj : Node
  pred : Pred
  obj : Node
deriving DecidableEq

/-- `HTMPL[uri]`: a URI in the `htmpl://` namespace. -/
def htmplN (uri : String) : Node := Node.uriRef "htmpl" uri

/-- Python `str(node)` on a query row. -/
def objStr : Node → String
  | Node.uriRef ns v => ns ++ "://" ++ v
  | Node.lit s => s
  | Node.boolLit b => if b then "true" else "false"

/-- Python `str(node).replace(str(HTMPL), "")`: the `htmpl://` namespace is
stripped, any other node prints in full. -/
def stripNode : Node → String
  | Node.uriRef ns v => if ns = "htmpl" then v else ns ++ "://" ++ v
  | Node.lit s => s
  | Node.boolLit b => if b then "true" else "false"

/-- The node value when the node is in the `htmpl://` namespace (the SPARQL
filter `STRSTARTS(STR(?uri), "htmpl://")` followed by the strip). -/
def htmplValue : Node → Option String
  | Node.uriRef ns v => if ns = "htmpl" then some v else none
  | _ => none

/-- All `dep:requires` statements, as an edge list over nodes. -/
def requiresEdges (g : List Triple) : List (Node × Node) :=
  (g.filter (fun t => t.pred = Pred.requires)).map (fun t => (t.subj, t.obj))

/-! ### `ComponentGraph` queries -/

/-- Source `ComponentGraph.get_deps`: all transitive `htmpl` dependencies of
a URI — the `dep:requires+` property path filtered to the `htmpl://`
namespace, with the namespace stripped. -/
def get_deps (g : List Triple) (uri : String) : Finset String :=
  ((reachPlus (requiresEdges g) (htmplN uri)).filterMap htmplValue).toFinset

/-- The `dep:python` literals attached to a node (used by
`get_python_deps` for the direct and the inherited query). -/
def pythonOf (g : List Triple) (n : Node) : List String :=
  (g.filter (fun t => t.subj = n ∧ t.pred = Pred.python)).map (fun t => objStr t.obj)

/-- Source `ComponentGraph.get_python_deps`: the node's own `dep:python`
literals plus those of every node reachable through `dep:requires+`. -/
def get_python_deps (g : List Triple) (uri : String) : Finset String :=
  (pythonOf g (htmplN uri)).toFinset ∪
    ((reachPlus (requiresEdges g) (htmplN uri)).flatMap (fun m => pythonOf g m)).toFinset

/-- Source `ComponentGraph.get_installed`: subjects of
`status:installed true` statements, namespace stripped. -/
def get_installed (g : List Triple) : Finset String :=
  ((g.filter (fun t => t.pred = Pred.installed ∧ t.obj = Node.boolLit true)).map
    (fun t => stripNode t.subj)).toFinset

/-- Source `ComponentGraph._all_uris` (list form, order of first
appearance): every `htmpl://` URI taking part in a `dep:requires` edge, as
subject or object. -/
def allUrisList (g : List Triple) : List String :=
  (((requiresEdges g).flatMap (fun e => [e.1, e.2])).filterMap htmplValue).dedup

def allUris (g : List Triple) : Finset String := (allUrisList g).toFinset

/-- Source `ComponentGraph._scan_installed`: probe the filesystem for every
known URI and assert `status:installed true` for the ones that exist.  The
filesystem is modelled as the set of paths, relative to `project_dir`, that
exist (`project_dir / uri` exists exactly when `uri ∈ fs`). -/
def scanInstalled (g : List Triple) (fs : List String) : List Triple :=
  ((allUrisList g).filter (fun u => decide (u ∈ fs))).map
    (fun u => ⟨htmplN u, Pred.installed, Node.boolLit true⟩)

/-- Source `ComponentGraph.__init__`: parse the statements and overlay the
installation scan onto the same graph. -/
def loadGraph (ttl : List Triple) (fs : List String) : List Triple :=
  ttl ++ scanInstalled ttl fs

/-- Source `ComponentGraph.resolve`: start from the selected set, union in
the transitive dependencies of each selected URI, and subtract the
installed set. -/
def resolve (g : List Triple) (selected : List String) : Finset String :=
  (selected.foldl (fun acc uri => acc ∪ get_deps g uri) selected.toFinset) \
    get_installed g

/-- A Python `dict` as an insertion-ordered association list: inserting an
existing key updates it in place, a new key is appended. -/
def dictInsert (d : List (String × String)) (k v : String) : List (String × String) :=
  if d.any (fun p => p.1 = k) then d.map (fun p => if p.1 = k then (k, v) else p)
  else d ++ [(k, v)]

/-- The rows of the `configKey` query of `get_config_keys`: (stripped
subject, key literal). -/
def configKeyRows (g : List Triple) : List (String × String) :=
  (g.filter (fun t => t.pred = Pred.configKey)).map
    (fun t => (stripNode t.subj, objStr t.obj))

/-- The `uri_to_key` dict of the source. -/
def uriToKeyDict (g : List Triple) : List (String × String) :=
  (configKeyRows g).foldl (fun d p => dictInsert d p.1 p.2) []

/-- Source `ComponentGraph.get_config_keys`: the dict comprehension
mapping `config_key` to `uri` over the given URIs; a duplicated key is
silently overwritten by the later URI in the argument list. -/
def get_config_keys (g : List Triple) (uris : List String) : List (String × String) :=
  uris.foldl
    (fun d uri =>
      match (uriToKeyDict g).find? (fun p => p.1 = uri) with
      | some p => dictInsert d p.2 uri
      | none => d)
    []

structure ComponentRecord where
  uri : String
  name : String
  help : String
  config_key : Option String
  installed : Bool
deriving DecidableEq

/-- First object of an optional attribute of a subject. -/
def attrObj? (g : List Triple) (n : Node) (p : Pred) : Option Node :=
  (g.find? (fun t => t.subj = n ∧ t.pred = p)).map (fun t => t.obj)

/-- Source `ComponentGraph.all_components`: one record per URI taking part
in a `dep:requires` edge, attributes filled from the optional statements
(display name defaulting to the last URI path segment) and `installed`
from the overlay. -/
def all_components (g : List Triple) : List ComponentRecord :=
  (allUrisList g).map (fun uri =>
    { uri := uri
      name := match attrObj? g (htmplN uri) Pred.name with
              | some o => objStr o
              | none => (uri.splitOn "/").getLastD ""
      help := match attrObj? g (htmplN uri) Pred.help with
              | some o => objStr o
              | none => ""
      config_key := (attrObj? g (htmplN uri) Pred.configKey).map objStr
      installed := decide (uri ∈ get_installed g) })

/-- Source `ComponentGraph.get_readme`: the base64-decoded readme literal
of the URI, or `none` when the graph has no readme statement for it.  The
decoded value is the byte content (UTF-8 decoding of the bytes into a
Python string is the identity on content and is left implicit). -/
def get_readme (g : List Triple) (uri : String) : Option (List Nat) :=
  (attrObj? g (htmplN uri) Pred.readme).bind (fun o => b64decode (objStr o).data)

/-! ### Graph builder (`build_component_ttl`)

One `RawManifest` models the `[project]` table of one `component.toml`
together with its directory name and the bytes of its readme file (when
declared and present on disk); the directory walk of the source is
abstracted into the list of manifests found.  The builder emits TTL text
lines; a missing required field (`uri`, `name`) raises an uncaught
`KeyError`, modelled by `Except.error`, which aborts the whole build. -/

structure RawManifest where
  dirname : String
  uri : Option String
  name : Option String
  dependencies : List String
  help : Option String
  readme : Option (List Nat)
deriving DecidableEq

/-- The turtle subject token `<htmpl://{uri}>`. -/
def renderSubject (uri : String) : List Char :=
  "<htmpl://".data ++ uri.data ++ ">".data

/-- The source's `help_text.replace('"', '\\"')`: escape double quotes
(and nothing else). -/
def escapeQuotes (s : List Char) : List Char :=
  s.flatMap (fun c => if c = '"' then ['\\', '"'] else [c])

/-- The statement lines emitted for one component directory (the body of
the `for component_dir in base_dir.iterdir()` loop), in source order:
name, optional configKey, dependencies, optional help, optional readme,
then a blank separator line. -/
def manifestLines (m : RawManifest) : Except String (List (List Char)) :=
  match m.uri with
  | none => Except.error "uri"
  | some uri =>
    match m.name with
    | none => Except.error "name"
    | some nm =>
      Except.ok (
        [renderSubject uri ++ " htmpl:name \"".data ++ nm.data ++ "\" .".data]
        ++ (match extract_config_key m.dirname with
            | some k => [renderSubject uri ++ " htmpl:configKey \"".data ++ k.data ++ "\" .".data]
            | none => [])
        ++ m.dependencies.map (fun d =>
            if (parse_dependency d).1 = "python" then
              renderSubject uri ++ " dep:python \"".data ++ (parse_dependency d).2.data ++ "\" .".data
            else
              renderSubject uri ++ " dep:requires <".data ++ (parse_dependency d).1.data ++ "://".data
                ++ (parse_dependency d).2.data ++ "> .".data)
        ++ (match m.help with
            | some h => [renderSubject uri ++ " htmpl:help \"".data ++ escapeQuotes h.data ++ "\" .".data]
            | none => [])
        ++ (match m.readme with
            | some bs => [renderSubject uri ++ " htmpl:readme \"".data ++ b64encode bs ++ "\" .".data]
            | none => [])
        ++ [[]])

def buildBody : List RawManifest → Except String (List (List Char))
  | [] => Except.ok []
  | m :: rest => do
    let ls ← manifestLines m
    let others ← buildBody rest
    Except.ok (ls ++ others)

/-- The two namespace declarations and the blank line the source starts
with. -/
def headerLines : List (List Char) :=
  ["@prefix htmpl: <htmpl://> .".data, "@prefix dep: <htmpl://depends/> .".data, []]

/-- Source `build_component_ttl`: header plus the statement blocks of every
component found, as text lines; the first manifest missing a required
field aborts the build. -/
def build_component_ttl (ms : List RawManifest) : Except String (List (List Char)) := do
  let body ← buildBody ms
  Except.ok (headerLines ++ body)

/-- The statements of one well-formed component as rdflib holds them after
parsing — the in-memory counterpart of `manifestLines` (readme stored as
its base64 literal, help with the escaping undone by the parser). -/
def manifestTriples1 (m : RawManifest) : List Triple :=
  match m.uri, m.name with
  | some uri, some nm =>
    [⟨htmplN uri, Pred.name, Node.lit nm⟩]
    ++ (match extract_config_key m.dirname with
        | some k => [⟨htmplN uri, Pred.configKey, Node.lit k⟩]
        | none => [])
    ++ m.dependencies.map (fun d =>
        if (parse_dependency d).1 = "python" then
          (⟨htmplN uri, Pred.python, Node.lit (parse_dependency d).2⟩ : Triple)
        else ⟨htmplN uri, Pred.requires, Node.uriRef (parse_dependency d).1 (parse_dependency d).2⟩)
    ++ (match m.help with
        | some h => [⟨htmplN uri, Pred.help, Node.lit h⟩]
        | none => [])
    ++ (match m.readme with
        | some bs => [⟨htmplN uri, Pred.readme, Node.lit ⟨b64encode bs⟩⟩]
        | none => [])
  | _, _ => []

def manifestTriples (ms : List RawManifest) : List Triple :=
  ms.flatMap manifestTriples1

/-! ### Turtle statement parser

Modelled from the spec: loading the serialized graph is done by rdflib's
turtle parser, library code not under `src/`.  Section 6 of the spec fixes
the format: newline-separated statements `<subject> <predicate> <object> .`
after two namespace-prefix declarations, where an object is either a node
reference in angle brackets or a quoted literal.  The parser below reads
exactly that statement shape (with the two known prefixes `htmpl:` and
`dep:` for predicates, and backslash-quote escapes inside literals). -/

/-- Read characters up to the next occurrence of `c`; fail when `c` is
absent. -/
def readUntil (c : Char) : List Char → Option (List Char × List Char)
  | [] => none
  | x :: xs =>
    if x = c then some ([], xs)
    else (readUntil c xs).map (fun p => (x :: p.1, p.2))

/-- Interpret the text inside angle brackets as a namespaced URI reference
(split at the first `://`). -/
def splitUri (s : List Char) : Option Node :=
  (readUntil ':' s).bind (fun p =>
    match p.2 with
    | '/' :: '/' :: v => some (Node.uriRef ⟨p.1⟩ ⟨v⟩)
    | _ => none)

def predOfToken (t : List Char) : Option Pred :=
  if t = "htmpl:name".data then some Pred.name
  else if t = "htmpl:configKey".data then some Pred.configKey
  else if t = "htmpl:help".data then some Pred.help
  else if t = "htmpl:readme".data then some Pred.readme
  else if t = "dep:requires".data then some Pred.requires
  else if t = "dep:python".data then some Pred.python
  else none

/-- Read a quoted literal after its opening quote, undoing backslash-quote
escapes, up to the closing quote. -/
def readLit : List Char → Option (List Char × List Char)
  | [] => none
  | c :: rest =>
    if c = '"' then some ([], rest)
    else if c = '\\' ∧ rest.head? = some '"' then
      (readLit rest.tail).map (fun p => ('"' :: p.1, p.2))
    else (readLit rest).map (fun p => (c :: p.1, p.2))
termination_by l => l.length
decreasing_by
  · simp only [List.length_cons]
    have := List.length_tail rest
    omega
  · simp only [List.length_cons]
    omega

/-- Parse the object token and the closing ` .` of a statement line. -/
def parseObjEnd (subj : Node) (pred : Pred) : List Char → Option Triple
  | [] => none
  | c :: r4 =>
    if c = '<' then
      (readUntil '>' r4).bind (fun po =>
        (splitUri po.1).bind (fun obj =>
          if po.2 = " .".data then some ⟨subj, pred, obj⟩ else none))
    else if c = '"' then
      (readLit r4).bind (fun po =>
        if po.2 = " .".data then some ⟨subj, pred, Node.lit ⟨po.1⟩⟩ else none)
    else none

def parseTripleLine (l : List Char) : Option Triple :=
  match l with
  | [] => none
  | c :: rest =>
    if c = '<' then
      (readUntil '>' rest).bind (fun ps =>
        (splitUri ps.1).bind (fun subj =>
          if ps.2.head? = some ' ' then
            (readUntil ' ' ps.2.tail).bind (fun pp =>
              (predOfToken pp.1).bind (fun pred => parseObjEnd subj pred pp.2))
          else none))
    else none

/-- Parse one line: blank lines and prefix declarations carry no
statement. -/
def parseLine (l : List Char) : Option (Option Triple) :=
  match l with
  | [] => some none
  | c :: rest => if c = '@' then some none else (parseTripleLine (c :: rest)).map some

def parseTTL : List (List Char) → Option (List Triple)
  | [] => some []
  | l :: rest =>
    (parseLine l).bind (fun t? =>
      (parseTTL rest).map (fun ts =>
        match t? with
        | some t => t :: ts
        | none => ts))

/-! ### Supporting lemmas about the queries -/

theorem stripNode_htmplN (u : String) : stripNode (htmplN u) = u := by
  simp [stripNode, htmplN]

theorem htmplValue_eq_some {n : Node} {y : String} :
    htmplValue n = some y ↔ n = htmplN y := by
  cases n with
  | uriRef ns v =>
    simp only [htmplValue, htmplN]
    by_cases h : ns = "htmpl"
    · subst h
      simp
    · simp [h]
  | lit s => simp [htmplValue, htmplN]
  | boolLit b => simp [htmplValue, htmplN]

/-- Membership in `get_deps` is one-or-more-step reachability along
`dep:requires` edges, landing on an `htmpl://` node. -/
theorem mem_get_deps {g : List Triple} {uri y : String} :
    y ∈ get_deps g uri ↔
      Relation.TransGen (edgeRel (requiresEdges g)) (htmplN uri) (htmplN y) := by
  simp only [get_deps, List.mem_toFinset, List.mem_filterMap]
  constructor
  · rintro ⟨n, hn, hv⟩
    rw [htmplValue_eq_some] at hv
    subst hv
    exact mem_reachPlus.mp hn
  · intro h
    exact ⟨htmplN y, mem_reachPlus.mpr h, htmplValue_eq_some.mpr rfl⟩

theorem mem_allUris {g : List Triple} {u : String} :
    u ∈ allUris g ↔
      ∃ e ∈ requiresEdges g, htmplValue e.1 = some u ∨ htmplValue e.2 = some u := by
  simp only [allUris, allUrisList, List.mem_toFinset, List.mem_dedup, List.mem_filterMap,
    List.mem_flatMap]
  constructor
  · rintro ⟨n, ⟨e, he, hn⟩, hv⟩
    simp only [List.mem_cons, List.not_mem_nil, or_false] at hn
    rcases hn with rfl | rfl
    · exact ⟨e, he, Or.inl hv⟩
    · exact ⟨e, he, Or.inr hv⟩
  · rintro ⟨e, he, hv | hv⟩
    · exact ⟨e.1, ⟨e, he, by simp⟩, hv⟩
    · exact ⟨e.2, ⟨e, he, by simp⟩, hv⟩

theorem source_mem_allUris {g : List Triple} {uri : String} {b : Node}
    (h : (htmplN uri, b) ∈ requiresEdges g) : uri ∈ allUris g := by
  exact mem_allUris.mpr ⟨(htmplN uri, b), h, Or.inl (htmplValue_eq_some.mpr rfl)⟩

theorem foldl_union_eq (f : String → Finset String) :
    ∀ (l : List String) (S : Finset String),
      l.foldl (fun acc u => acc ∪ f u) S = S ∪ l.toFinset.biUnion f
  | [], S => by simp
  | u :: l, S => by
    rw [List.foldl_cons, foldl_union_eq f l (S ∪ f u)]
    ext x
    simp only [Finset.mem_union, List.toFinset_cons, Finset.mem_biUnion, Finset.mem_insert,
      List.mem_toFinset]
    constructor
    · rintro ((hx | hx) | ⟨v, hv, hx⟩)
      · exact Or.inl hx
      · exact Or.inr ⟨u, Or.inl rfl, hx⟩
      · exact Or.inr ⟨v, Or.inr hv, hx⟩
    · rintro (hx | ⟨v, (rfl | hv), hx⟩)
      · exact Or.inl (Or.inl hx)
      · exact Or.inl (Or.inr hx)
      · exact Or.inr ⟨v, hv, hx⟩

theorem get_installed_loadGraph_subset {ttl : List Triple} {fs : List String}
    (hni : ∀ t ∈ ttl, t.pred ≠ Pred.installed) :
    ∀ u ∈ get_installed (loadGraph ttl fs), u ∈ allUris ttl := by
  intro u hu
  simp only [get_installed, loadGraph, List.filter_append, List.map_append,
    List.mem_toFinset, List.mem_append, List.mem_map, List.mem_filter,
    decide_eq_true_eq] at hu
  rcases hu with ⟨t, ⟨ht, hcond⟩, hsu⟩ | ⟨t, ht, hsu⟩
  · exact absurd hcond.1 (hni t ht)
  · unfold scanInstalled at ht
    obtain ⟨v, hvmem, rfl⟩ := List.mem_map.mp ht.1
    obtain ⟨hv, -⟩ := List.mem_filter.mp hvmem
    rw [stripNode_htmplN] at hsu
    subst hsu
    exact List.mem_toFinset.mpr hv

/-! ### Claim theorems -/

/-- Demonstration graph for the installed-exclusion scenario of C1:
component `components/a` requires `components/b`, and `components/b`'s
path exists on disk. -/
def c1Graph : List Triple :=
  loadGraph [⟨htmplN "components/a", Pred.requires, htmplN "components/b"⟩] ["components/b"]

/-- C1: `resolve(selected)` is exactly (selected ∪ union of the
dependency closures) minus the installed set of the overlay; in the
A-requires-B scenario with B installed, `resolve(["A"])` is `{A}` while
`get_deps("A")` still reports `{B}`. -/
theorem resolve_needed_minus_installed :
    (∀ (g : List Triple) (selected : List String),
      resolve g selected =
        (selected.toFinset ∪ selected.toFinset.biUnion (fun u => get_deps g u)) \
          get_installed g)
    ∧ resolve c1Graph ["components/a"] = {"components/a"}
    ∧ get_deps c1Graph "components/a" = {"components/b"} := by
  refine ⟨fun g selected => ?_, by decide, by decide⟩
  unfold resolve
  rw [foldl_union_eq]

/-- C2 counterexample: resolving a URI absent from the graph silently
returns that URI in the result set; no error value is produced (the
source has no `UnknownComponentError` and performs no validation). -/
theorem resolve_unknown_uri_silent :
    resolve (loadGraph [] []) ["components/does-not-exist"] =
      {"components/does-not-exist"} := by
  decide

/-- C2 amended: `resolve` performs no unknown-URI validation; a selected
URI unknown to the graph is passed through into the result set unchanged
(it can never be marked installed by the overlay scan, which only probes
known URIs). -/
theorem resolve_unknown_uri_passthrough (ttl : List Triple) (fs : List String)
    (uri : String) (hni : ∀ t ∈ ttl, t.pred ≠ Pred.installed)
    (hunk : uri ∉ allUris ttl) :
    uri ∈ resolve (loadGraph ttl fs) [uri] := by
  unfold resolve
  rw [Finset.mem_sdiff]
  constructor
  · simp only [List.foldl_cons, List.foldl_nil]
    exact Finset.mem_union_left _ (by simp)
  · intro hin
    exact hunk (get_installed_loadGraph_subset hni uri hin)

theorem resolve_unknown_uri_passthrough_witness :
    "components/does-not-exist" ∈
      resolve (loadGraph [⟨htmplN "components/a", Pred.requires, htmplN "components/b"⟩] [])
        ["components/does-not-exist"] :=
  resolve_unknown_uri_passthrough _ _ _ (by decide) (by decide)

/-- C4 counterexample: on a self-loop (`components/a` requires itself)
the closure query returns the URI itself, so `get_deps` is not the
closure-excluding-self the claim states. -/
theorem get_deps_selfloop_contains_self :
    get_deps [⟨htmplN "components/a", Pred.requires, htmplN "components/a"⟩]
      "components/a" = {"components/a"} := by
  decide

/-- C4 amended: on every loaded graph, cyclic or not, `get_deps`
terminates (it is a total function of the statement list) and returns
exactly the set of `htmpl://` nodes reachable from the URI through one or
more `dep:requires` edges — a set that contains the URI itself precisely
when the URI lies on a cycle through itself, and never contains external
(`dep:python` literal) dependencies, which are not `requires` edges. -/
theorem get_deps_is_reachability (g : List Triple) (uri y : String) :
    y ∈ get_deps g uri ↔
      Relation.TransGen (edgeRel (requiresEdges g)) (htmplN uri) (htmplN y) :=
  mem_get_deps

/-- Demonstration graph for C5: `components/a` requires `services/b`,
which declares the external dependency `pkgX>=1.0`. -/
def c5Graph : List Triple :=
  [⟨htmplN "components/a", Pred.requires, htmplN "services/b"⟩,
   ⟨htmplN "services/b", Pred.python, Node.lit "pkgX>=1.0"⟩]

/-- C5: `get_python_deps` returns the union of the URI's own external
package literals and those of every node in its transitive `requires`
closure; in particular an external dependency declared by a required
component is inherited. -/
theorem get_python_deps_union :
    (∀ (g : List Triple) (uri v : String),
      v ∈ get_python_deps g uri ↔
        v ∈ pythonOf g (htmplN uri) ∨
          ∃ m, Relation.TransGen (edgeRel (requiresEdges g)) (htmplN uri) m ∧
            v ∈ pythonOf g m)
    ∧ "pkgX>=1.0" ∈ get_python_deps c5Graph "components/a" := by
  constructor
  · intro g uri v
    simp only [get_python_deps, Finset.mem_union, List.mem_toFinset, List.mem_flatMap]
    constructor
    · rintro (hd | ⟨m, hm, hv⟩)
      · exact Or.inl hd
      · exact Or.inr ⟨m, mem_reachPlus.mp hm, hv⟩
    · rintro (hd | ⟨m, hm, hv⟩)
      · exact Or.inl hd
      · exact Or.inr ⟨m, mem_reachPlus.mpr hm, hv⟩
  · decide

/-- Demonstration graph for C7: two components claim the identical
feature flag `shared`. -/
def c7Graph : List Triple :=
  [⟨htmplN "components/a", Pred.configKey, Node.lit "shared"⟩,
   ⟨htmplN "components/b", Pred.configKey, Node.lit "shared"⟩]

/-- C7 counterexample: with two components carrying the identical
`config_key`, `get_config_keys` silently maps the flag to the later URI —
it returns a plain mapping, not a configuration error (the source has no
`AmbiguousFlagError`). -/
theorem get_config_keys_duplicate_silent :
    get_config_keys c7Graph ["components/a", "components/b"] =
      [("shared", "components/b")] := by
  decide

/-- C7 amended: when two distinct components carry the identical
`config_key` and both appear in the query list, `get_config_keys`
resolves the ambiguity silently: the flag maps to whichever matching URI
comes last in the argument list, and no error is surfaced. -/
theorem get_config_keys_last_wins (u1 u2 k : String) (h : u1 ≠ u2) :
    get_config_keys
      [⟨htmplN u1, Pred.configKey, Node.lit k⟩, ⟨htmplN u2, Pred.configKey, Node.lit k⟩]
      [u1, u2] = [(k, u2)] := by
  have hrows : configKeyRows
      [⟨htmplN u1, Pred.configKey, Node.lit k⟩, ⟨htmplN u2, Pred.configKey, Node.lit k⟩] =
      [(u1, k), (u2, k)] := by
    simp [configKeyRows, stripNode_htmplN, objStr]
  have hdict : uriToKeyDict
      [⟨htmplN u1, Pred.configKey, Node.lit k⟩, ⟨htmplN u2, Pred.configKey, Node.lit k⟩] =
      [(u1, k), (u2, k)] := by
    simp [uriToKeyDict, hrows, dictInsert, h]
  simp [get_config_keys, hdict, dictInsert, List.find?_cons_of_pos, List.find?_cons_of_neg, h]

theorem get_config_keys_last_wins_witness :
    get_config_keys
      [⟨htmplN "components/x", Pred.configKey, Node.lit "flag"⟩,
       ⟨htmplN "components/y", Pred.configKey, Node.lit "flag"⟩]
      ["components/x", "components/y"] = [("flag", "components/y")] :=
  get_config_keys_last_wins "components/x" "components/y" "flag" (by decide)

/-- C8 counterexample: a component declared in the graph with a `name`
attribute but taking part in no `dep:requires` edge is omitted from
`all_components` entirely. -/
theorem all_components_omits_edgeless :
    all_components [⟨htmplN "components/forms", Pred.name, Node.lit "forms"⟩] = [] := by
  decide

/-- C8 amended: `all_components` returns one record per URI that takes
part in at least one internal `dep:requires` edge (as source or target);
components with no dependency edges are omitted.  For the returned
records the `installed` flag is populated from the current overlay. -/
theorem all_components_uris_and_installed (g : List Triple) :
    (∀ u, (∃ r ∈ all_components g, r.uri = u) ↔
      ∃ e ∈ requiresEdges g, htmplValue e.1 = some u ∨ htmplValue e.2 = some u)
    ∧ ∀ r ∈ all_components g, r.installed = decide (r.uri ∈ get_installed g) := by
  constructor
  · intro u
    have : (∃ r ∈ all_components g, r.uri = u) ↔ u ∈ allUris g := by
      simp only [all_components, List.mem_map]
      constructor
      · rintro ⟨r, ⟨v, hv, rfl⟩, hr⟩
        simp only at hr
        subst hr
        exact List.mem_toFinset.mpr hv
      · intro hu
        exact ⟨_, ⟨u, List.mem_toFinset.mp hu, rfl⟩, rfl⟩
    rw [this, mem_allUris]
  · rintro r hr
    simp only [all_components, List.mem_map] at hr
    rcases hr with ⟨v, _, rfl⟩
    rfl

/-- C10: on every loaded graph, querying `get_deps` for a URI not present
in the graph returns the empty set and no error (the closure query simply
matches nothing), so `get_deps` alone cannot distinguish an unknown
component from a dependency-free one. -/
theorem get_deps_unknown_empty (g : List Triple) (uri : String)
    (h : uri ∉ allUris g) : get_deps g uri = ∅ := by
  rw [Finset.eq_empty_iff_forall_not_mem]
  intro y hy
  rcases Relation.TransGen.head'_iff.mp (mem_get_deps.mp hy) with ⟨z, hz, _⟩
  exact h (source_mem_allUris hz)

theorem get_deps_unknown_empty_witness :
    get_deps [⟨htmplN "components/a", Pred.requires, htmplN "components/b"⟩]
      "components/does-not-exist" = ∅ :=
  get_deps_unknown_empty _ _ (by decide)

/-! ### Lemmas for the flag extractor -/

theorem wordChar_not_space {c : Char} (h : isWordChar c = true) : isSpaceChar c = false := by
  by_contra hs
  rw [Bool.not_eq_false] at hs
  simp only [isSpaceChar, Bool.or_eq_true, decide_eq_true_eq] at hs
  rcases hs with ((((rfl | rfl) | rfl) | rfl) | rfl) | rfl <;> simp [isWordChar] at h

theorem spaceChar_not_word {c : Char} (h : isSpaceChar c = true) : isWordChar c = false := by
  by_contra hw
  rw [Bool.not_eq_false] at hw
  rw [wordChar_not_space hw] at h
  exact Bool.false_ne_true h

theorem dropWhile_append_all {p : Char → Bool} {l1 : List Char} (l2 : List Char)
    (h : ∀ c ∈ l1, p c = true) :
    (l1 ++ l2).dropWhile p = l2.dropWhile p := by
  induction l1 with
  | nil => rfl
  | cons c t ih =>
    rw [List.cons_append, List.dropWhile_cons, if_pos (h c (by simp))]
    exact ih (fun x hx => h x (by simp [hx]))

theorem dropWhile_cons_neg {p : Char → Bool} {c : Char} (l : List Char)
    (h : p c = false) : (c :: l).dropWhile p = c :: l := by
  rw [List.dropWhile_cons, if_neg (by simp [h])]

theorem takeWhile_append_all {p : Char → Bool} {l1 : List Char} (l2 : List Char)
    (h : ∀ c ∈ l1, p c = true) :
    (l1 ++ l2).takeWhile p = l1 ++ l2.takeWhile p := by
  induction l1 with
  | nil => rfl
  | cons c t ih =>
    rw [List.cons_append, List.takeWhile_cons, if_pos (h c (by simp)), ih
      (fun x hx => h x (by simp [hx])), List.cons_append]

theorem takeWhile_cons_neg {p : Char → Bool} {c : Char} (l : List Char)
    (h : p c = false) : (c :: l).takeWhile p = [] := by
  rw [List.takeWhile_cons, if_neg (by simp [h])]

/-- Reduction of the if-marker matcher on an assembled marker. -/
theorem matchIfMarker_assembled (ws1 ws2 w ws3 rest : List Char)
    (h1 : ∀ c ∈ ws1, isSpaceChar c = true)
    (h2 : ws2 ≠ []) (h2a : ∀ c ∈ ws2, isSpaceChar c = true)
    (hw : w ≠ []) (hwa : ∀ c ∈ w, isWordChar c = true)
    (h3 : ∀ c ∈ ws3, isSpaceChar c = true) :
    matchIfMarker ('\x7b' :: '%' ::
        (ws1 ++ 'i' :: 'f' :: (ws2 ++ (w ++ (ws3 ++ '%' :: '\x7d' :: rest))))) =
      some (w, rest) := by
  obtain ⟨c, ws2', rfl⟩ : ∃ c t, ws2 = c :: t := by
    cases ws2 with
    | nil => exact absurd rfl h2
    | cons c t => exact ⟨c, t, rfl⟩
  obtain ⟨d, w', rfl⟩ : ∃ d t, w = d :: t := by
    cases w with
    | nil => exact absurd rfl hw
    | cons d t => exact ⟨d, t, rfl⟩
  have hc : isSpaceChar c = true := h2a c (by simp)
  have hd : isWordChar d = true := hwa d (by simp)
  have htw0 : (ws3 ++ '%' :: '\x7d' :: rest).takeWhile isWordChar = [] := by
    cases ws3 with
    | nil => exact takeWhile_cons_neg _ (by decide)
    | cons e t =>
      rw [List.cons_append]
      exact takeWhile_cons_neg _ (spaceChar_not_word (h3 e (by simp)))
  have hdw0 : (ws3 ++ '%' :: '\x7d' :: rest).dropWhile isWordChar = ws3 ++ '%' :: '\x7d' :: rest := by
    cases ws3 with
    | nil => exact dropWhile_cons_neg _ (by decide)
    | cons e t =>
      rw [List.cons_append]
      exact dropWhile_cons_neg _ (spaceChar_not_word (h3 e (by simp)))
  have hdw1 : (ws1 ++ 'i' :: 'f' :: c :: (ws2' ++ (d :: (w' ++ (ws3 ++ '%' :: '\x7d' :: rest))))).dropWhile isSpaceChar
      = 'i' :: 'f' :: c :: (ws2' ++ (d :: (w' ++ (ws3 ++ '%' :: '\x7d' :: rest)))) := by
    rw [dropWhile_append_all _ h1]
    exact dropWhile_cons_neg _ (by decide)
  have hdw2 : (ws2' ++ (d :: (w' ++ (ws3 ++ '%' :: '\x7d' :: rest)))).dropWhile isSpaceChar
      = d :: (w' ++ (ws3 ++ '%' :: '\x7d' :: rest)) := by
    rw [dropWhile_append_all _ (fun x hx => h2a x (by simp [hx]))]
    exact dropWhile_cons_neg _ (wordChar_not_space hd)
  have htw : (d :: (w' ++ (ws3 ++ '%' :: '\x7d' :: rest))).takeWhile isWordChar = d :: w' := by
    rw [show d :: (w' ++ (ws3 ++ '%' :: '\x7d' :: rest)) = (d :: w') ++ (ws3 ++ '%' :: '\x7d' :: rest) by
      rw [List.cons_append]]
    rw [takeWhile_append_all _ hwa, htw0, List.append_nil]
  have hdw : (d :: (w' ++ (ws3 ++ '%' :: '\x7d' :: rest))).dropWhile isWordChar = ws3 ++ '%' :: '\x7d' :: rest := by
    rw [show d :: (w' ++ (ws3 ++ '%' :: '\x7d' :: rest)) = (d :: w') ++ (ws3 ++ '%' :: '\x7d' :: rest) by
      rw [List.cons_append]]
    rw [dropWhile_append_all _ hwa, hdw0]
  have hdw3 : (ws3 ++ '%' :: '\x7d' :: rest).dropWhile isSpaceChar = '%' :: '\x7d' :: rest := by
    rw [dropWhile_append_all _ h3]
    exact dropWhile_cons_neg _ (by decide)
  simp only [List.cons_append, matchIfMarker, hdw1, hc, hdw2, htw, hdw, hdw3, ite_true]
  rw [if_neg (by simp)]

/-- Reduction of the endif matcher on an assembled closing marker. -/
theorem matchEndifMarker_assembled (ws4 ws5 post : List Char)
    (h4 : ∀ c ∈ ws4, isSpaceChar c = true)
    (h5 : ∀ c ∈ ws5, isSpaceChar c = true) :
    matchEndifMarker ('\x7b' :: '%' ::
        (ws4 ++ 'e' :: 'n' :: 'd' :: 'i' :: 'f' :: (ws5 ++ '%' :: '\x7d' :: post))) = true := by
  have hdw4 : (ws4 ++ 'e' :: 'n' :: 'd' :: 'i' :: 'f' :: (ws5 ++ '%' :: '\x7d' :: post)).dropWhile isSpaceChar
      = 'e' :: 'n' :: 'd' :: 'i' :: 'f' :: (ws5 ++ '%' :: '\x7d' :: post) := by
    rw [dropWhile_append_all _ h4]
    exact dropWhile_cons_neg _ (by decide)
  have hdw5 : (ws5 ++ '%' :: '\x7d' :: post).dropWhile isSpaceChar = '%' :: '\x7d' :: post := by
    rw [dropWhile_append_all _ h5]
    exact dropWhile_cons_neg _ (by decide)
  simp only [matchEndifMarker, hdw4, hdw5]

/-- The lazy scan for the endif marker succeeds when the marker follows a
newline-free middle. -/
theorem findEndif_assembled (mid : List Char) {c0 : Char} {tail : List Char}
    (hmid : ∀ c ∈ mid, c ≠ '\n')
    (htail : matchEndifMarker (c0 :: tail) = true) :
    findEndif (mid ++ c0 :: tail) = true := by
  induction mid with
  | nil => simp only [List.nil_append, findEndif, htail, Bool.true_or]
  | cons c t ih =>
    rw [List.cons_append]
    show (matchEndifMarker (c :: (t ++ c0 :: tail)) || _) = true
    rw [Bool.or_eq_true]
    refine Or.inr ?_
    rw [Bool.and_eq_true]
    exact ⟨by simp [hmid c (by simp)], ih (fun x hx => hmid x (by simp [hx]))⟩

theorem matchIfMarker_none_of_head {c : Char} (rest : List Char) (h : c ≠ '\x7b') :
    matchIfMarker (c :: rest) = none := by
  unfold matchIfMarker
  split
  · rename_i heq
    cases heq
    exact absurd rfl h
  · rfl

theorem searchConditional_none {s : List Char} (h : ∀ c ∈ s, c ≠ '\x7b') :
    searchConditional s = none := by
  induction s with
  | nil => rfl
  | cons c t ih =>
    simp only [searchConditional, matchIfMarker_none_of_head t (h c (by simp))]
    exact ih (fun x hx => h x (by simp [hx]))

/-- `re.search` finds the conditional marker: after a brace-free part of
the name, a full if/endif marker with arbitrary internal whitespace yields
its word group. -/
theorem searchConditional_found (pre ws1 ws2 w ws3 mid ws4 ws5 post : List Char)
    (hpre : ∀ c ∈ pre, c ≠ '\x7b')
    (h1 : ∀ c ∈ ws1, isSpaceChar c = true)
    (h2 : ws2 ≠ []) (h2a : ∀ c ∈ ws2, isSpaceChar c = true)
    (hw : w ≠ []) (hwa : ∀ c ∈ w, isWordChar c = true)
    (h3 : ∀ c ∈ ws3, isSpaceChar c = true)
    (hmid : ∀ c ∈ mid, c ≠ '\n')
    (h4 : ∀ c ∈ ws4, isSpaceChar c = true)
    (h5 : ∀ c ∈ ws5, isSpaceChar c = true) :
    searchConditional (pre ++ '\x7b' :: '%' ::
      (ws1 ++ 'i' :: 'f' :: (ws2 ++ (w ++ (ws3 ++ '%' :: '\x7d' ::
        (mid ++ '\x7b' :: '%' ::
          (ws4 ++ 'e' :: 'n' :: 'd' :: 'i' :: 'f' :: (ws5 ++ '%' :: '\x7d' :: post)))))))) =
      some w := by
  induction pre with
  | nil =>
    rw [List.nil_append]
    have hif := matchIfMarker_assembled ws1 ws2 w ws3
      (mid ++ '\x7b' :: '%' ::
        (ws4 ++ 'e' :: 'n' :: 'd' :: 'i' :: 'f' :: (ws5 ++ '%' :: '\x7d' :: post)))
      h1 h2 h2a hw hwa h3
    have hend := matchEndifMarker_assembled ws4 ws5 post h4 h5
    have hfind := findEndif_assembled mid hmid hend
    simp only [searchConditional, hif, hfind, ite_true]
  | cons c t ih =>
    rw [List.cons_append]
    simp only [searchConditional, matchIfMarker_none_of_head _ (hpre c (by simp))]
    exact ih (fun x hx => hpre x (by simp [hx]))

/-- C9: `extract_config_key` recovers the flag identifier from a jinja
conditional directory name, tolerating irregular internal whitespace, and
returns `none` for names containing no marker: the spec's three examples
hold; in general a brace-free prefix followed by a full if/endif marker
with any word flag and any amount of internal whitespace yields exactly
that flag, and a string without an opening brace yields `none`. -/
theorem extract_config_key_spec :
    extract_config_key "\x7b% if auth %\x7dauth\x7b% endif %\x7d" = some "auth"
    ∧ extract_config_key "\x7b%  if  use_redis  %\x7dredis\x7b%  endif  %\x7d" = some "use_redis"
    ∧ extract_config_key "htmpl_admin" = none
    ∧ (∀ pre ws1 ws2 w ws3 mid ws4 ws5 post : List Char,
        (∀ c ∈ pre, c ≠ '\x7b') →
        (∀ c ∈ ws1, isSpaceChar c = true) →
        ws2 ≠ [] → (∀ c ∈ ws2, isSpaceChar c = true) →
        w ≠ [] → (∀ c ∈ w, isWordChar c = true) →
        (∀ c ∈ ws3, isSpaceChar c = true) →
        (∀ c ∈ mid, c ≠ '\n') →
        (∀ c ∈ ws4, isSpaceChar c = true) →
        (∀ c ∈ ws5, isSpaceChar c = true) →
        extract_config_key ⟨pre ++ '\x7b' :: '%' ::
          (ws1 ++ 'i' :: 'f' :: (ws2 ++ (w ++ (ws3 ++ '%' :: '\x7d' ::
            (mid ++ '\x7b' :: '%' ::
              (ws4 ++ 'e' :: 'n' :: 'd' :: 'i' :: 'f' ::
                (ws5 ++ '%' :: '\x7d' :: post)))))))⟩ = some ⟨w⟩)
    ∧ (∀ s : String, (∀ c ∈ s.data, c ≠ '\x7b') → extract_config_key s = none) := by
  refine ⟨by decide, by decide, by decide, ?_, ?_⟩
  · intro pre ws1 ws2 w ws3 mid ws4 ws5 post hpre h1 h2 h2a hw hwa h3 hmid h4 h5
    have hfound := searchConditional_found pre ws1 ws2 w ws3 mid ws4 ws5 post
      hpre h1 h2 h2a hw hwa h3 hmid h4 h5
    show (searchConditional (pre ++ '\x7b' :: '%' ::
        (ws1 ++ 'i' :: 'f' :: (ws2 ++ (w ++ (ws3 ++ '%' :: '\x7d' ::
          (mid ++ '\x7b' :: '%' ::
            (ws4 ++ 'e' :: 'n' :: 'd' :: 'i' :: 'f' ::
              (ws5 ++ '%' :: '\x7d' :: post))))))))).map (fun l => (⟨l⟩ : String)) = some ⟨w⟩
    rw [hfound]
    rfl
  · intro s hs
    unfold extract_config_key
    rw [searchConditional_none hs]
    rfl

theorem extract_config_key_spec_witness :
    extract_config_key "v1-\x7b%if oauth  %\x7dcache\x7b% endif%\x7d!" = some "oauth" := by
  have h := extract_config_key_spec.2.2.2.1 "v1-".data [] [' '] "oauth".data "  ".data
    "cache".data [' '] [] "!".data (by decide) (by decide) (by decide) (by decide)
    (by decide) (by decide) (by decide) (by decide) (by decide) (by decide)
  have he : ("v1-\x7b%if oauth  %\x7dcache\x7b% endif%\x7d!" : String)
      = ⟨"v1-".data ++ '\x7b' :: '%' ::
          ([] ++ 'i' :: 'f' :: ([' '] ++ ("oauth".data ++ ("  ".data ++ '%' :: '\x7d' ::
            ("cache".data ++ '\x7b' :: '%' ::
              ([' '] ++ 'e' :: 'n' :: 'd' :: 'i' :: 'f' ::
                ([] ++ '%' :: '\x7d' :: "!".data)))))))⟩ := by decide
  rw [he]
  exact h

/-! ### C6: behaviour of the builder on a broken manifest -/

/-- A manifest whose `[project]` table lacks the required `uri` field. -/
def brokenManifest : RawManifest :=
  { dirname := "forms", uri := none, name := some "forms", dependencies := [],
    help := none, readme := none }

/-- A perfectly well-formed manifest. -/
def goodManifest : RawManifest :=
  { dirname := "redis", uri := some "services/redis", name := some "redis",
    dependencies := [], help := none, readme := none }

theorem manifestLines_error {m : RawManifest} (hbad : m.uri = none ∨ m.name = none) :
    ∃ e, manifestLines m = Except.error e := by
  unfold manifestLines
  rcases hbad with h | h
  · rw [h]
    exact ⟨"uri", rfl⟩
  · cases hu : m.uri with
    | none => exact ⟨"uri", rfl⟩
    | some u =>
      rw [h]
      exact ⟨"name", rfl⟩

theorem buildBody_error : ∀ (ms : List RawManifest) (m : RawManifest), m ∈ ms →
    (m.uri = none ∨ m.name = none) → ∃ e, buildBody ms = Except.error e
  | m0 :: rest, m, hm, hbad => by
    rcases List.mem_cons.mp hm with rfl | hmem
    · obtain ⟨e, he⟩ := manifestLines_error hbad
      refine ⟨e, ?_⟩
      unfold buildBody
      rw [he]
      rfl
    · cases hml : manifestLines m0 with
      | error e =>
        refine ⟨e, ?_⟩
        unfold buildBody
        rw [hml]
        rfl
      | ok ls =>
        obtain ⟨e, he⟩ := buildBody_error rest m hmem hbad
        refine ⟨e, ?_⟩
        unfold buildBody
        rw [hml]
        show buildBody rest >>= _ = Except.error e
        rw [he]
        rfl

/-- C6 counterexample: a component tree whose first manifest is missing
the required `uri` field aborts the whole build with an uncaught error;
the perfectly well-formed second component is not emitted at all — the
build does not skip the broken unit and continue. -/
theorem build_aborts_on_broken_manifest :
    build_component_ttl [brokenManifest, goodManifest] = Except.error "uri" := by
  rfl

/-- C6 amended: whenever any manifest in the tree is missing a required
field (`uri` or `name`), `build_component_ttl` raises an uncaught error
(`KeyError` in the source) and produces no output at all: no serialized
graph with the remaining components, and no recorded error list. -/
theorem build_aborts_of_missing_field (ms : List RawManifest) (m : RawManifest)
    (hm : m ∈ ms) (hbad : m.uri = none ∨ m.name = none) :
    ∃ e, build_component_ttl ms = Except.error e := by
  obtain ⟨e, he⟩ := buildBody_error ms m hm hbad
  refine ⟨e, ?_⟩
  unfold build_component_ttl
  rw [he]
  rfl

theorem build_aborts_of_missing_field_witness :
    ∃ e, build_component_ttl [goodManifest, brokenManifest] = Except.error e :=
  build_aborts_of_missing_field [goodManifest, brokenManifest] brokenManifest
    (by decide) (Or.inl rfl)

/-! ### C3: well-formedness of manifests, and parsing of the emitted lines

Well-formedness captures the boundary of the source's text encoding: the
builder escapes only double quotes, and only in help texts, so attribute
values must not contain raw backslashes (or, outside help, raw quotes) to
survive serialization; URIs must not contain the closing angle bracket;
nothing may embed a newline (a newline would split the statement line in
the real file). -/

def hasChar (s : List Char) (c : Char) : Bool := s.any (fun x => x = c)

def wfLit (s : String) : Bool :=
  !hasChar s.data '"' && !hasChar s.data '\\' && !hasChar s.data '\n'

def wfHelpStr (s : String) : Bool := !hasChar s.data '\\' && !hasChar s.data '\n'

def wfUriStr (s : String) : Bool := !hasChar s.data '>' && !hasChar s.data '\n'

def wfDepStr (d : String) : Bool :=
  if (parse_dependency d).1 = "python" then
    !hasChar (parse_dependency d).2.data '"' && !hasChar (parse_dependency d).2.data '\\' &&
      !hasChar (parse_dependency d).2.data '\n'
  else
    !hasChar d.data '>' && !hasChar d.data '\n'

def wfManifest (m : RawManifest) : Bool :=
  (match m.uri with | some u => wfUriStr u | none => false) &&
  (match m.name with | some n => wfLit n | none => false) &&
  m.dependencies.all wfDepStr &&
  (match m.help with | some h => wfHelpStr h | none => true) &&
  (match m.readme with | some bs => bs.all (fun b => decide (b < 256)) | none => true)

theorem not_mem_of_not_hasChar {s : List Char} {c : Char} (h : hasChar s c = false) :
    c ∉ s := by
  intro hc
  simp only [hasChar, List.any_eq_true, not_exists, Bool.not_eq_true] at h
  have := h
  rw [List.any_eq_false] at this
  exact absurd (by simp : decide (c = c) = true) (by simpa using this c hc)

theorem readUntil_append {c : Char} {s : List Char} (rest : List Char) (h : c ∉ s) :
    readUntil c (s ++ c :: rest) = some (s, rest) := by
  induction s with
  | nil =>
    simp [readUntil]
  | cons x t ih =>
    have hx : x ≠ c := fun hxc => h (hxc ▸ List.mem_cons_self x t)
    rw [List.cons_append]
    simp only [readUntil, if_neg hx, ih (fun hc => h (List.mem_cons_of_mem x hc))]
    rfl

theorem readLit_plain {s : List Char} (rest : List Char)
    (h1 : '"' ∉ s) (h2 : '\\' ∉ s) :
    readLit (s ++ '"' :: rest) = some (s, rest) := by
  induction s with
  | nil =>
    rw [List.nil_append]
    simp only [readLit, ite_true, if_pos rfl]
  | cons x t ih =>
    have hx1 : x ≠ '"' := fun hc => h1 (hc ▸ List.mem_cons_self x t)
    have hx2 : x ≠ '\\' := fun hc => h2 (hc ▸ List.mem_cons_self x t)
    rw [List.cons_append]
    simp only [readLit, if_neg hx1, if_neg (by simp [hx2] : ¬(x = '\\' ∧
        (t ++ '"' :: rest).head? = some '"')),
      ih (fun hc => h1 (List.mem_cons_of_mem x hc))
        (fun hc => h2 (List.mem_cons_of_mem x hc)), Option.map_some']

theorem readLit_escaped {s : List Char} (rest : List Char) (h : '\\' ∉ s) :
    readLit (escapeQuotes s ++ '"' :: rest) = some (s, rest) := by
  induction s with
  | nil =>
    rw [show escapeQuotes [] = [] from rfl, List.nil_append]
    simp only [readLit, ite_true, if_pos rfl]
  | cons x t ih =>
    have hx : x ≠ '\\' := fun hc => h (hc ▸ List.mem_cons_self x t)
    have ht : '\\' ∉ t := fun hc => h (List.mem_cons_of_mem x hc)
    by_cases hq : x = '"'
    · subst hq
      rw [show escapeQuotes ('"' :: t) = '\\' :: '"' :: escapeQuotes t by
        simp [escapeQuotes]]
      rw [List.cons_append, List.cons_append]
      simp only [readLit, if_neg (by decide : ¬('\\' : Char) = '"'),
        List.head?_cons, true_and, ite_true, List.tail_cons, ih ht, Option.map_some']
    · rw [show escapeQuotes (x :: t) = x :: escapeQuotes t by
        simp [escapeQuotes, hq]]
      rw [List.cons_append]
      simp only [readLit, if_neg hq, if_neg (by simp [hx] : ¬(x = '\\' ∧
          (escapeQuotes t ++ '"' :: rest).head? = some '"')),
        ih ht, Option.map_some']

theorem splitUri_mk (ns v : String) (hns : ':' ∉ ns.data) :
    splitUri (ns.data ++ ':' :: '/' :: '/' :: v.data) = some (Node.uriRef ns v) := by
  unfold splitUri
  rw [readUntil_append _ hns]
  rfl

theorem b64Char_safe : ∀ n ∈ List.range 64,
    b64Char n ≠ '"' ∧ b64Char n ≠ '\\' := by
  decide

theorem b64encode_safe : ∀ (bs : List Nat), (∀ b ∈ bs, b < 256) →
    ∀ c ∈ b64encode bs, c ≠ '"' ∧ c ≠ '\\'
  | [], _ => by simp [b64encode]
  | [a], h => by
    have ha : a < 256 := h a (by simp)
    have s1 := b64Char_safe (a / 4) (by simp only [List.mem_range]; omega)
    have s2 := b64Char_safe (a % 4 * 16) (by simp only [List.mem_range]; omega)
    intro c hc
    simp only [b64encode, List.mem_cons, List.not_mem_nil, or_false] at hc
    rcases hc with rfl | rfl | rfl | rfl
    · exact s1
    · exact s2
    · exact ⟨by decide, by decide⟩
    · exact ⟨by decide, by decide⟩
  | [a, b], h => by
    have ha : a < 256 := h a (by simp)
    have hb : b < 256 := h b (by simp)
    have s1 := b64Char_safe (a / 4) (by simp only [List.mem_range]; omega)
    have s2 := b64Char_safe (a % 4 * 16 + b / 16) (by simp only [List.mem_range]; omega)
    have s3 := b64Char_safe (b % 16 * 4) (by simp only [List.mem_range]; omega)
    intro c hc
    simp only [b64encode, List.mem_cons, List.not_mem_nil, or_false] at hc
    rcases hc with rfl | rfl | rfl | rfl
    · exact s1
    · exact s2
    · exact s3
    · exact ⟨by decide, by decide⟩
  | a :: b :: c0 :: d :: rest, h => by
    have ha : a < 256 := h a (by simp)
    have hb : b < 256 := h b (by simp)
    have hc0 : c0 < 256 := h c0 (by simp)
    have s1 := b64Char_safe (a / 4) (by simp only [List.mem_range]; omega)
    have s2 := b64Char_safe (a % 4 * 16 + b / 16) (by simp only [List.mem_range]; omega)
    have s3 := b64Char_safe (b % 16 * 4 + c0 / 64) (by simp only [List.mem_range]; omega)
    have s4 := b64Char_safe (c0 % 64) (by simp only [List.mem_range]; omega)
    have ih := b64encode_safe (d :: rest)
      (fun x hx => h x (by simp only [List.mem_cons] at hx ⊢; tauto))
    intro c hc
    simp only [b64encode, List.mem_cons] at hc
    rcases hc with rfl | rfl | rfl | rfl | hc
    · exact s1
    · exact s2
    · exact s3
    · exact s4
    · exact ih c hc
  | [a, b, c0], h => by
    have ha : a < 256 := h a (by simp)
    have hb : b < 256 := h b (by simp)
    have hc0 : c0 < 256 := h c0 (by simp)
    have s1 := b64Char_safe (a / 4) (by simp only [List.mem_range]; omega)
    have s2 := b64Char_safe (a % 4 * 16 + b / 16) (by simp only [List.mem_range]; omega)
    have s3 := b64Char_safe (b % 16 * 4 + c0 / 64) (by simp only [List.mem_range]; omega)
    have s4 := b64Char_safe (c0 % 64) (by simp only [List.mem_range]; omega)
    intro c hc
    simp only [b64encode, List.mem_cons, List.not_mem_nil, or_false] at hc
    rcases hc with rfl | rfl | rfl | rfl
    · exact s1
    · exact s2
    · exact s3
    · exact s4

theorem parse_dependency_ns_chars {d : String} :
    ∀ c ∈ (parse_dependency d).1.data, c ∈ d.data ∨ c ∈ "htmpl".data := by
  intro c hc
  unfold parse_dependency at hc
  split at hc
  · exact Or.inl ((List.takeWhile_sublist _).subset hc)
  · exact Or.inr hc

theorem parse_dependency_ns_no_colon {d : String} :
    ':' ∉ (parse_dependency d).1.data := by
  intro hc
  unfold parse_dependency at hc
  split at hc
  · have := List.mem_takeWhile_imp hc
    simp at this
  · simp at hc

theorem parse_dependency_val_chars {d : String} :
    ∀ c ∈ (parse_dependency d).2.data, c ∈ d.data := by
  intro c hc
  unfold parse_dependency at hc
  split at hc
  · exact (List.dropWhile_sublist _).subset (List.tail_subset _ hc)
  · exact hc

/-! ### Parsing each emitted statement line -/

theorem parseLine_lt (rest : List Char) :
    parseLine ('<' :: rest) = (parseTripleLine ('<' :: rest)).map some := rfl

theorem splitUri_htmpl (u : String) :
    splitUri ('h' :: 't' :: 'm' :: 'p' :: 'l' :: ':' :: '/' :: '/' :: u.data) =
      some (htmplN u) := by
  unfold splitUri
  rw [show ('h' :: 't' :: 'm' :: 'p' :: 'l' :: ':' :: '/' :: '/' :: u.data : List Char)
      = ('h' :: 't' :: 'm' :: 'p' :: 'l' :: []) ++ ':' :: ('/' :: '/' :: u.data) from rfl]
  rw [readUntil_append _ (by decide)]
  rfl

theorem parseTripleLine_emitted (u : String) (hu : '>' ∉ u.data) (tok : List Char)
    (pred : Pred) (htok : predOfToken tok = some pred) (hsp : (' ' : Char) ∉ tok)
    (tail : List Char) :
    parseTripleLine ('<' :: 'h' :: 't' :: 'm' :: 'p' :: 'l' :: ':' :: '/' :: '/' ::
        (u.data ++ ('>' :: ' ' :: (tok ++ ' ' :: tail)))) =
      parseObjEnd (htmplN u) pred tail := by
  have hnogt : '>' ∉ ('h' :: 't' :: 'm' :: 'p' :: 'l' :: ':' :: '/' :: '/' :: u.data : List Char) := by
    intro hmem
    simp only [List.mem_cons] at hmem
    rcases hmem with h | h | h | h | h | h | h | h | h
    · exact absurd h (by decide)
    · exact absurd h (by decide)
    · exact absurd h (by decide)
    · exact absurd h (by decide)
    · exact absurd h (by decide)
    · exact absurd h (by decide)
    · exact absurd h (by decide)
    · exact absurd h (by decide)
    · exact hu h
  have h1 : readUntil '>' ('h' :: 't' :: 'm' :: 'p' :: 'l' :: ':' :: '/' :: '/' ::
        (u.data ++ ('>' :: ' ' :: (tok ++ ' ' :: tail))))
      = some ('h' :: 't' :: 'm' :: 'p' :: 'l' :: ':' :: '/' :: '/' :: u.data,
          ' ' :: (tok ++ ' ' :: tail)) := by
    have h0 := readUntil_append (c := '>')
      (s := 'h' :: 't' :: 'm' :: 'p' :: 'l' :: ':' :: '/' :: '/' :: u.data)
      (' ' :: (tok ++ ' ' :: tail)) hnogt
    rwa [show ('h' :: 't' :: 'm' :: 'p' :: 'l' :: ':' :: '/' :: '/' :: u.data : List Char)
        ++ '>' :: (' ' :: (tok ++ ' ' :: tail))
        = 'h' :: 't' :: 'm' :: 'p' :: 'l' :: ':' :: '/' :: '/' ::
            (u.data ++ ('>' :: ' ' :: (tok ++ ' ' :: tail))) from rfl] at h0
  simp only [parseTripleLine, ite_true, h1, Option.some_bind, splitUri_htmpl u,
    List.head?_cons, List.tail_cons]
  rw [readUntil_append _ hsp, Option.some_bind, htok, Option.some_bind]

theorem parseObjEnd_lit (subj : Node) (pred : Pred) (s : List Char)
    (h1 : '"' ∉ s) (h2 : '\\' ∉ s) :
    parseObjEnd subj pred ('"' :: (s ++ '"' :: ' ' :: '.' :: [])) =
      some ⟨subj, pred, Node.lit ⟨s⟩⟩ := by
  simp only [parseObjEnd, ite_true, readLit_plain (' ' :: '.' :: []) h1 h2,
    Option.some_bind]
  rw [if_neg (by decide : ¬('"' : Char) = '<')]

theorem parseObjEnd_escaped (subj : Node) (pred : Pred) (s : List Char)
    (h : '\\' ∉ s) :
    parseObjEnd subj pred ('"' :: (escapeQuotes s ++ '"' :: ' ' :: '.' :: [])) =
      some ⟨subj, pred, Node.lit ⟨s⟩⟩ := by
  simp only [parseObjEnd, ite_true, readLit_escaped (' ' :: '.' :: []) h,
    Option.some_bind]
  rw [if_neg (by decide : ¬('"' : Char) = '<')]

theorem parseObjEnd_uri (subj : Node) (pred : Pred) (ns v : String)
    (hns : ':' ∉ ns.data) (h1 : '>' ∉ ns.data) (h2 : '>' ∉ v.data) :
    parseObjEnd subj pred
      ('<' :: (ns.data ++ (':' :: '/' :: '/' :: (v.data ++ '>' :: ' ' :: '.' :: [])))) =
      some ⟨subj, pred, Node.uriRef ns v⟩ := by
  have hng : '>' ∉ ns.data ++ ':' :: '/' :: '/' :: v.data := by
    intro hm
    rcases List.mem_append.mp hm with h | h
    · exact h1 h
    · simp only [List.mem_cons] at h
      rcases h with h | h | h | h
      · exact absurd h (by decide)
      · exact absurd h (by decide)
      · exact absurd h (by decide)
      · exact h2 h
  have h1 : readUntil '>' (ns.data ++ (':' :: '/' :: '/' :: (v.data ++ '>' :: ' ' :: '.' :: [])))
      = some (ns.data ++ ':' :: '/' :: '/' :: v.data, ' ' :: '.' :: []) := by
    have h0 := readUntil_append (c := '>') (s := ns.data ++ ':' :: '/' :: '/' :: v.data)
      (' ' :: '.' :: []) hng
    rwa [show (ns.data ++ ':' :: '/' :: '/' :: v.data) ++ '>' :: (' ' :: '.' :: [])
        = ns.data ++ (':' :: '/' :: '/' :: (v.data ++ '>' :: ' ' :: '.' :: [])) by
      simp [List.append_assoc]] at h0
  simp only [parseObjEnd, ite_true, h1, Option.some_bind, splitUri_mk ns v hns]

theorem parseLine_nameLine (uri nm : String) (hu : '>' ∉ uri.data)
    (h1 : '"' ∉ nm.data) (h2 : '\\' ∉ nm.data) :
    parseLine (renderSubject uri ++ " htmpl:name \"".data ++ nm.data ++ "\" .".data)
      = some (some ⟨htmplN uri, Pred.name, Node.lit nm⟩) := by
  rw [show renderSubject uri ++ " htmpl:name \"".data ++ nm.data ++ "\" .".data
      = '<' :: 'h' :: 't' :: 'm' :: 'p' :: 'l' :: ':' :: '/' :: '/' ::
        (uri.data ++ ('>' :: ' ' :: ("htmpl:name".data ++ ' ' ::
          ('"' :: (nm.data ++ '"' :: ' ' :: '.' :: []))))) by
    simp [renderSubject, List.append_assoc]]
  rw [parseLine_lt, parseTripleLine_emitted uri hu "htmpl:name".data Pred.name rfl (by decide) _,
    parseObjEnd_lit (htmplN uri) Pred.name nm.data h1 h2]
  rfl

theorem parseLine_configKeyLine (uri k : String) (hu : '>' ∉ uri.data)
    (h1 : '"' ∉ k.data) (h2 : '\\' ∉ k.data) :
    parseLine (renderSubject uri ++ " htmpl:configKey \"".data ++ k.data ++ "\" .".data)
      = some (some ⟨htmplN uri, Pred.configKey, Node.lit k⟩) := by
  rw [show renderSubject uri ++ " htmpl:configKey \"".data ++ k.data ++ "\" .".data
      = '<' :: 'h' :: 't' :: 'm' :: 'p' :: 'l' :: ':' :: '/' :: '/' ::
        (uri.data ++ ('>' :: ' ' :: ("htmpl:configKey".data ++ ' ' ::
          ('"' :: (k.data ++ '"' :: ' ' :: '.' :: []))))) by
    simp [renderSubject, List.append_assoc]]
  rw [parseLine_lt,
    parseTripleLine_emitted uri hu "htmpl:configKey".data Pred.configKey rfl (by decide) _,
    parseObjEnd_lit (htmplN uri) Pred.configKey k.data h1 h2]
  rfl

theorem parseLine_pythonLine (uri v : String) (hu : '>' ∉ uri.data)
    (h1 : '"' ∉ v.data) (h2 : '\\' ∉ v.data) :
    parseLine (renderSubject uri ++ " dep:python \"".data ++ v.data ++ "\" .".data)
      = some (some ⟨htmplN uri, Pred.python, Node.lit v⟩) := by
  rw [show renderSubject uri ++ " dep:python \"".data ++ v.data ++ "\" .".data
      = '<' :: 'h' :: 't' :: 'm' :: 'p' :: 'l' :: ':' :: '/' :: '/' ::
        (uri.data ++ ('>' :: ' ' :: ("dep:python".data ++ ' ' ::
          ('"' :: (v.data ++ '"' :: ' ' :: '.' :: []))))) by
    simp [renderSubject, List.append_assoc]]
  rw [parseLine_lt, parseTripleLine_emitted uri hu "dep:python".data Pred.python rfl (by decide) _,
    parseObjEnd_lit (htmplN uri) Pred.python v.data h1 h2]
  rfl

theorem parseLine_requiresLine (uri ns v : String) (hu : '>' ∉ uri.data)
    (hns : ':' ∉ ns.data) (h1 : '>' ∉ ns.data) (h2 : '>' ∉ v.data) :
    parseLine (renderSubject uri ++ " dep:requires <".data ++ ns.data ++ "://".data
        ++ v.data ++ "> .".data)
      = some (some ⟨htmplN uri, Pred.requires, Node.uriRef ns v⟩) := by
  rw [show renderSubject uri ++ " dep:requires <".data ++ ns.data ++ "://".data
        ++ v.data ++ "> .".data
      = '<' :: 'h' :: 't' :: 'm' :: 'p' :: 'l' :: ':' :: '/' :: '/' ::
        (uri.data ++ ('>' :: ' ' :: ("dep:requires".data ++ ' ' ::
          ('<' :: (ns.data ++ (':' :: '/' :: '/' :: (v.data ++ '>' :: ' ' :: '.' :: []))))))) by
    simp [renderSubject, List.append_assoc]]
  rw [parseLine_lt,
    parseTripleLine_emitted uri hu "dep:requires".data Pred.requires rfl (by decide) _,
    parseObjEnd_uri (htmplN uri) Pred.requires ns v hns h1 h2]
  rfl

theorem parseLine_helpLine (uri h : String) (hu : '>' ∉ uri.data)
    (hh : '\\' ∉ h.data) :
    parseLine (renderSubject uri ++ " htmpl:help \"".data ++ escapeQuotes h.data ++ "\" .".data)
      = some (some ⟨htmplN uri, Pred.help, Node.lit h⟩) := by
  rw [show renderSubject uri ++ " htmpl:help \"".data ++ escapeQuotes h.data ++ "\" .".data
      = '<' :: 'h' :: 't' :: 'm' :: 'p' :: 'l' :: ':' :: '/' :: '/' ::
        (uri.data ++ ('>' :: ' ' :: ("htmpl:help".data ++ ' ' ::
          ('"' :: (escapeQuotes h.data ++ '"' :: ' ' :: '.' :: []))))) by
    simp [renderSubject, List.append_assoc]]
  rw [parseLine_lt, parseTripleLine_emitted uri hu "htmpl:help".data Pred.help rfl (by decide) _,
    parseObjEnd_escaped (htmplN uri) Pred.help h.data hh]
  rfl

theorem parseLine_readmeLine (uri : String) (bs : List Nat) (hu : '>' ∉ uri.data)
    (hb : ∀ b ∈ bs, b < 256) :
    parseLine (renderSubject uri ++ " htmpl:readme \"".data ++ b64encode bs ++ "\" .".data)
      = some (some ⟨htmplN uri, Pred.readme, Node.lit ⟨b64encode bs⟩⟩) := by
  rw [show renderSubject uri ++ " htmpl:readme \"".data ++ b64encode bs ++ "\" .".data
      = '<' :: 'h' :: 't' :: 'm' :: 'p' :: 'l' :: ':' :: '/' :: '/' ::
        (uri.data ++ ('>' :: ' ' :: ("htmpl:readme".data ++ ' ' ::
          ('"' :: (b64encode bs ++ '"' :: ' ' :: '.' :: []))))) by
    simp [renderSubject, List.append_assoc]]
  rw [parseLine_lt, parseTripleLine_emitted uri hu "htmpl:readme".data Pred.readme rfl (by decide) _,
    parseObjEnd_lit (htmplN uri) Pred.readme (b64encode bs)
      (fun hc => (b64encode_safe bs hb _ hc).1 rfl)
      (fun hc => (b64encode_safe bs hb _ hc).2 rfl)]
  rfl

/-! ### Composing parsed lines -/

theorem parseTTL_cons_skip {l : List Char} {rest : List (List Char)} {ts : List Triple}
    (h1 : parseLine l = some none) (h2 : parseTTL rest = some ts) :
    parseTTL (l :: rest) = some ts := by
  simp only [parseTTL, h1, Option.some_bind, h2, Option.map_some']

theorem parseTTL_cons_stmt {l : List Char} {rest : List (List Char)} {t : Triple}
    {ts : List Triple} (h1 : parseLine l = some (some t)) (h2 : parseTTL rest = some ts) :
    parseTTL (l :: rest) = some (t :: ts) := by
  simp only [parseTTL, h1, Option.some_bind, h2, Option.map_some']

theorem parseTTL_cons_inv {l : List Char} {rest : List (List Char)} {ts1 : List Triple}
    (h : parseTTL (l :: rest) = some ts1) :
    ∃ t? ts, parseLine l = some t? ∧ parseTTL rest = some ts ∧
      ts1 = t?.elim ts (fun t => t :: ts) := by
  simp only [parseTTL] at h
  cases hpl : parseLine l with
  | none =>
    rw [hpl] at h
    simp at h
  | some t? =>
    rw [hpl] at h
    simp only [Option.some_bind] at h
    cases hpr : parseTTL rest with
    | none =>
      rw [hpr] at h
      simp at h
    | some ts =>
      rw [hpr] at h
      simp only [Option.map_some', Option.some.injEq] at h
      refine ⟨t?, ts, rfl, rfl, ?_⟩
      cases t? with
      | none => simpa using h.symm
      | some t => simpa using h.symm

theorem parseTTL_append {ls1 ls2 : List (List Char)} {ts1 ts2 : List Triple}
    (h1 : parseTTL ls1 = some ts1) (h2 : parseTTL ls2 = some ts2) :
    parseTTL (ls1 ++ ls2) = some (ts1 ++ ts2) := by
  induction ls1 generalizing ts1 with
  | nil =>
    simp only [parseTTL, Option.some.injEq] at h1
    subst h1
    simpa using h2
  | cons l rest ih =>
    obtain ⟨t?, ts, hpl, hpr, hts⟩ := parseTTL_cons_inv h1
    rw [List.cons_append]
    cases t? with
    | none =>
      rw [show ts1 = ts from hts]
      exact parseTTL_cons_skip hpl (ih hpr)
    | some t =>
      rw [show ts1 = t :: ts from hts,
        show (t :: ts) ++ ts2 = t :: (ts ++ ts2) from rfl]
      exact parseTTL_cons_stmt hpl (ih hpr)

/-! ### Well-formedness unpacking -/

theorem wfLit_parts {s : String} (h : wfLit s = true) :
    '"' ∉ s.data ∧ '\\' ∉ s.data := by
  unfold wfLit at h
  simp only [Bool.and_eq_true, Bool.not_eq_true'] at h
  exact ⟨not_mem_of_not_hasChar h.1.1, not_mem_of_not_hasChar h.1.2⟩

theorem wfHelpStr_parts {s : String} (h : wfHelpStr s = true) : '\\' ∉ s.data := by
  unfold wfHelpStr at h
  simp only [Bool.and_eq_true, Bool.not_eq_true'] at h
  exact not_mem_of_not_hasChar h.1

theorem wfUriStr_parts {s : String} (h : wfUriStr s = true) : '>' ∉ s.data := by
  unfold wfUriStr at h
  simp only [Bool.and_eq_true, Bool.not_eq_true'] at h
  exact not_mem_of_not_hasChar h.1

theorem wfDepStr_python {d : String} (hp : (parse_dependency d).1 = "python")
    (h : wfDepStr d = true) :
    '"' ∉ (parse_dependency d).2.data ∧ '\\' ∉ (parse_dependency d).2.data := by
  unfold wfDepStr at h
  rw [if_pos hp] at h
  simp only [Bool.and_eq_true, Bool.not_eq_true'] at h
  exact ⟨not_mem_of_not_hasChar h.1.1, not_mem_of_not_hasChar h.1.2⟩

theorem wfDepStr_internal {d : String} (hp : ¬(parse_dependency d).1 = "python")
    (h : wfDepStr d = true) : '>' ∉ d.data := by
  unfold wfDepStr at h
  rw [if_neg hp] at h
  simp only [Bool.and_eq_true, Bool.not_eq_true'] at h
  exact not_mem_of_not_hasChar h.1

theorem wfManifest_parts {m : RawManifest} (h : wfManifest m = true) :
    (∃ u, m.uri = some u ∧ wfUriStr u = true) ∧
    (∃ n, m.name = some n ∧ wfLit n = true) ∧
    (∀ d ∈ m.dependencies, wfDepStr d = true) ∧
    (∀ h0, m.help = some h0 → wfHelpStr h0 = true) ∧
    (∀ bs, m.readme = some bs → ∀ b ∈ bs, b < 256) := by
  unfold wfManifest at h
  simp only [Bool.and_eq_true] at h
  obtain ⟨⟨⟨⟨h1, h2⟩, h3⟩, h4⟩, h5⟩ := h
  refine ⟨?_, ?_, ?_, ?_, ?_⟩
  · cases hu : m.uri with
    | none => rw [hu] at h1; exact absurd h1 (by simp)
    | some u => rw [hu] at h1; exact ⟨u, rfl, h1⟩
  · cases hn : m.name with
    | none => rw [hn] at h2; exact absurd h2 (by simp)
    | some n => rw [hn] at h2; exact ⟨n, rfl, h2⟩
  · intro d hd
    exact List.all_eq_true.mp h3 d hd
  · intro h0 hh
    rw [hh] at h4
    exact h4
  · intro bs hbs
    rw [hbs] at h5
    intro b hb
    simpa using List.all_eq_true.mp h5 b hb

/-! ### The extracted config key is made of word characters -/

theorem matchIfMarker_wordChars {s w r : List Char}
    (h : matchIfMarker s = some (w, r)) : ∀ c ∈ w, isWordChar c = true := by
  unfold matchIfMarker at h
  split at h
  · split at h
    · split at h
      · split at h
        · exact absurd h (by simp)
        · split at h
          · rw [Option.some.injEq, Prod.mk.injEq] at h
            intro c hc
            rw [← h.1] at hc
            exact List.mem_takeWhile_imp hc
          · exact absurd h (by simp)
      · exact absurd h (by simp)
    · exact absurd h (by simp)
  · exact absurd h (by simp)

theorem searchConditional_wordChars : ∀ {s w : List Char},
    searchConditional s = some w → ∀ c ∈ w, isWordChar c = true
  | [], w, h => by
    rw [show searchConditional [] = none from rfl] at h
    exact absurd h (by simp)
  | c0 :: rest, w, h => by
    unfold searchConditional at h
    split at h
    · rename_i w' r heq
      split at h
      · rw [Option.some.injEq] at h
        subst h
        exact matchIfMarker_wordChars heq
      · exact searchConditional_wordChars h
    · exact searchConditional_wordChars h

theorem extract_config_key_chars {d k : String} (h : extract_config_key d = some k) :
    ∀ c ∈ k.data, isWordChar c = true := by
  unfold extract_config_key at h
  cases hs : searchConditional d.data with
  | none =>
    rw [hs] at h
    exact absurd h (by simp)
  | some w =>
    rw [hs] at h
    simp only [Option.map_some', Option.some.injEq] at h
    subst h
    exact searchConditional_wordChars hs

theorem wordChar_safe {c : Char} (h : isWordChar c = true) : c ≠ '"' ∧ c ≠ '\\' := by
  constructor
  · intro he
    subst he
    revert h
    decide
  · intro he
    subst he
    revert h
    decide

/-! ### Parsing a whole emitted component block -/

theorem manifestLines_eq (m : RawManifest) {u n : String}
    (hu : m.uri = some u) (hn : m.name = some n) :
    manifestLines m = Except.ok (
      [renderSubject u ++ " htmpl:name \"".data ++ n.data ++ "\" .".data]
      ++ (match extract_config_key m.dirname with
          | some k => [renderSubject u ++ " htmpl:configKey \"".data ++ k.data ++ "\" .".data]
          | none => [])
      ++ m.dependencies.map (fun d =>
          if (parse_dependency d).1 = "python" then
            renderSubject u ++ " dep:python \"".data ++ (parse_dependency d).2.data ++ "\" .".data
          else
            renderSubject u ++ " dep:requires <".data ++ (parse_dependency d).1.data ++ "://".data
              ++ (parse_dependency d).2.data ++ "> .".data)
      ++ (match m.help with
          | some h => [renderSubject u ++ " htmpl:help \"".data ++ escapeQuotes h.data ++ "\" .".data]
          | none => [])
      ++ (match m.readme with
          | some bs => [renderSubject u ++ " htmpl:readme \"".data ++ b64encode bs ++ "\" .".data]
          | none => [])
      ++ [[]]) := by
  unfold manifestLines
  rw [hu, hn]

theorem manifestTriples1_eq (m : RawManifest) {u n : String}
    (hu : m.uri = some u) (hn : m.name = some n) :
    manifestTriples1 m =
      [⟨htmplN u, Pred.name, Node.lit n⟩]
      ++ (match extract_config_key m.dirname with
          | some k => [⟨htmplN u, Pred.configKey, Node.lit k⟩]
          | none => [])
      ++ m.dependencies.map (fun d =>
          if (parse_dependency d).1 = "python" then
            (⟨htmplN u, Pred.python, Node.lit (parse_dependency d).2⟩ : Triple)
          else ⟨htmplN u, Pred.requires, Node.uriRef (parse_dependency d).1 (parse_dependency d).2⟩)
      ++ (match m.help with
          | some h => [⟨htmplN u, Pred.help, Node.lit h⟩]
          | none => [])
      ++ (match m.readme with
          | some bs => [⟨htmplN u, Pred.readme, Node.lit ⟨b64encode bs⟩⟩]
          | none => []) := by
  unfold manifestTriples1
  rw [hu, hn]

theorem parseTTL_depLines (u : String) (hu : '>' ∉ u.data) :
    ∀ (deps : List String), (∀ d ∈ deps, wfDepStr d = true) →
    parseTTL (deps.map (fun d =>
        if (parse_dependency d).1 = "python" then
          renderSubject u ++ " dep:python \"".data ++ (parse_dependency d).2.data ++ "\" .".data
        else
          renderSubject u ++ " dep:requires <".data ++ (parse_dependency d).1.data ++ "://".data
            ++ (parse_dependency d).2.data ++ "> .".data))
      = some (deps.map (fun d =>
        if (parse_dependency d).1 = "python" then
          (⟨htmplN u, Pred.python, Node.lit (parse_dependency d).2⟩ : Triple)
        else ⟨htmplN u, Pred.requires, Node.uriRef (parse_dependency d).1 (parse_dependency d).2⟩))
  | [], _ => rfl
  | d :: rest, hwf => by
    have hd := hwf d (by simp)
    have ih := parseTTL_depLines u hu rest (fun x hx => hwf x (by simp [hx]))
    rw [List.map_cons, List.map_cons]
    by_cases hp : (parse_dependency d).1 = "python"
    · rw [if_pos hp, if_pos hp]
      refine parseTTL_cons_stmt ?_ ih
      exact parseLine_pythonLine u _ hu (wfDepStr_python hp hd).1 (wfDepStr_python hp hd).2
    · rw [if_neg hp, if_neg hp]
      refine parseTTL_cons_stmt ?_ ih
      refine parseLine_requiresLine u _ _ hu parse_dependency_ns_no_colon ?_ ?_
      · intro hc
        rcases parse_dependency_ns_chars _ hc with h | h
        · exact wfDepStr_internal hp hd h
        · exact absurd h (by decide)
      · intro hc
        exact wfDepStr_internal hp hd (parse_dependency_val_chars _ hc)

theorem parseTTL_blank : parseTTL [([] : List Char)] = some [] := rfl

theorem parseTTL_manifestLines (m : RawManifest) (hwf : wfManifest m = true)
    {ls : List (List Char)} (hls : manifestLines m = Except.ok ls) :
    parseTTL ls = some (manifestTriples1 m) := by
  obtain ⟨⟨u, hu, hwu⟩, ⟨n, hn, hwn⟩, hdeps, hhelp, hread⟩ := wfManifest_parts hwf
  rw [manifestLines_eq m hu hn, Except.ok.injEq] at hls
  subst hls
  rw [manifestTriples1_eq m hu hn]
  have hgtu := wfUriStr_parts hwu
  have hname : parseTTL [renderSubject u ++ " htmpl:name \"".data ++ n.data ++ "\" .".data]
      = some [⟨htmplN u, Pred.name, Node.lit n⟩] :=
    parseTTL_cons_stmt
      (parseLine_nameLine u n hgtu (wfLit_parts hwn).1 (wfLit_parts hwn).2) rfl
  have hconfig : parseTTL (match extract_config_key m.dirname with
        | some k => [renderSubject u ++ " htmpl:configKey \"".data ++ k.data ++ "\" .".data]
        | none => [])
      = some (match extract_config_key m.dirname with
        | some k => [⟨htmplN u, Pred.configKey, Node.lit k⟩]
        | none => []) := by
    cases hk : extract_config_key m.dirname with
    | none => rfl
    | some k =>
      have hkw := extract_config_key_chars hk
      exact parseTTL_cons_stmt
        (parseLine_configKeyLine u k hgtu
          (fun hc => (wordChar_safe (hkw _ hc)).1 rfl)
          (fun hc => (wordChar_safe (hkw _ hc)).2 rfl)) rfl
  have hdep := parseTTL_depLines u hgtu m.dependencies hdeps
  have hhelp' : parseTTL (match m.help with
        | some h => [renderSubject u ++ " htmpl:help \"".data ++ escapeQuotes h.data ++ "\" .".data]
        | none => [])
      = some (match m.help with
        | some h => [⟨htmplN u, Pred.help, Node.lit h⟩]
        | none => []) := by
    cases hh : m.help with
    | none => rfl
    | some h0 =>
      exact parseTTL_cons_stmt
        (parseLine_helpLine u h0 hgtu (wfHelpStr_parts (hhelp h0 hh))) rfl
  have hread' : parseTTL (match m.readme with
        | some bs => [renderSubject u ++ " htmpl:readme \"".data ++ b64encode bs ++ "\" .".data]
        | none => [])
      = some (match m.readme with
        | some bs => [⟨htmplN u, Pred.readme, Node.lit ⟨b64encode bs⟩⟩]
        | none => []) := by
    cases hr : m.readme with
    | none => rfl
    | some bs =>
      exact parseTTL_cons_stmt
        (parseLine_readmeLine u bs hgtu (hread bs hr)) rfl
  have hall := parseTTL_append (parseTTL_append (parseTTL_append (parseTTL_append
    (parseTTL_append hname hconfig) hdep) hhelp') hread') parseTTL_blank
  rwa [List.append_nil] at hall

theorem buildBody_ok : ∀ (ms : List RawManifest), (∀ m ∈ ms, wfManifest m = true) →
    ∃ body, buildBody ms = Except.ok body
  | [], _ => ⟨[], rfl⟩
  | m :: rest, hwf => by
    obtain ⟨⟨u, hu, _⟩, ⟨n, hn, _⟩, _, _, _⟩ := wfManifest_parts (hwf m (by simp))
    obtain ⟨ls, hls⟩ : ∃ ls, manifestLines m = Except.ok ls :=
      ⟨_, manifestLines_eq m hu hn⟩
    obtain ⟨body, hbody⟩ := buildBody_ok rest (fun x hx => hwf x (by simp [hx]))
    refine ⟨ls ++ body, ?_⟩
    have hdef : buildBody (m :: rest) = (manifestLines m).bind
        (fun ls0 => (buildBody rest).bind (fun others => Except.ok (ls0 ++ others))) := rfl
    rw [hdef, hls, hbody]
    rfl

theorem parseTTL_buildBody : ∀ (ms : List RawManifest),
    (∀ m ∈ ms, wfManifest m = true) →
    ∀ {body : List (List Char)}, buildBody ms = Except.ok body →
    parseTTL body = some (manifestTriples ms)
  | [], _, body, hb => by
    rw [show buildBody [] = Except.ok [] from rfl, Except.ok.injEq] at hb
    subst hb
    rfl
  | m :: rest, hwf, body, hb => by
    unfold buildBody at hb
    cases hml : manifestLines m with
    | error e =>
      rw [hml] at hb
      exact absurd (show Except.error e = Except.ok body from hb) (by simp)
    | ok ls =>
      rw [hml] at hb
      cases hbr : buildBody rest with
      | error e =>
        rw [hbr] at hb
        exact absurd (show Except.error e = Except.ok body from hb) (by simp)
      | ok body' =>
        rw [hbr] at hb
        have hb2 : ls ++ body' = body := by
          have : Except.ok (ε := String) (ls ++ body') = Except.ok body := hb
          rwa [Except.ok.injEq] at this
        subst hb2
        rw [show manifestTriples (m :: rest) = manifestTriples1 m ++ manifestTriples rest
          from rfl]
        exact parseTTL_append
          (parseTTL_manifestLines m (hwf m (by simp)) hml)
          (parseTTL_buildBody rest (fun x hx => hwf x (by simp [hx])) hbr)

theorem parseTTL_header : parseTTL headerLines = some [] := rfl

theorem parseTTL_build (ms : List RawManifest) (hwf : ∀ m ∈ ms, wfManifest m = true)
    {lines : List (List Char)} (hb : build_component_ttl ms = Except.ok lines) :
    parseTTL lines = some (manifestTriples ms) := by
  unfold build_component_ttl at hb
  cases hbb : buildBody ms with
  | error e =>
    rw [hbb] at hb
    exact absurd (show Except.error e = Except.ok lines from hb) (by simp)
  | ok body =>
    rw [hbb] at hb
    have hb2 : headerLines ++ body = lines := by
      have : Except.ok (ε := String) (headerLines ++ body) = Except.ok lines := hb
      rwa [Except.ok.injEq] at this
    subst hb2
    have := parseTTL_append parseTTL_header (parseTTL_buildBody ms hwf hbb)
    simpa using this

/-! ### Retrieving the readme from the statement store -/

theorem manifestTriples1_subj (m : RawManifest) {u n : String}
    (hu : m.uri = some u) (hn : m.name = some n) :
    ∀ t ∈ manifestTriples1 m, t.subj = htmplN u := by
  rw [manifestTriples1_eq m hu hn]
  intro t ht
  simp only [List.mem_append] at ht
  rcases ht with (((hA | hB) | hC) | hD) | hE
  · simp only [List.mem_singleton] at hA
    subst hA
    rfl
  · cases hk : extract_config_key m.dirname with
    | none =>
      rw [hk] at hB
      exact absurd hB (by simp)
    | some k =>
      rw [hk] at hB
      simp only [List.mem_singleton] at hB
      subst hB
      rfl
  · simp only [List.mem_map] at hC
    rcases hC with ⟨d, _, rfl⟩
    split
    · rfl
    · rfl
  · cases hh : m.help with
    | none =>
      rw [hh] at hD
      exact absurd hD (by simp)
    | some h0 =>
      rw [hh] at hD
      simp only [List.mem_singleton] at hD
      subst hD
      rfl
  · cases hr : m.readme with
    | none =>
      rw [hr] at hE
      exact absurd hE (by simp)
    | some bs =>
      rw [hr] at hE
      simp only [List.mem_singleton] at hE
      subst hE
      rfl

theorem find_readme_manifestTriples1 (m : RawManifest) {u n : String} {bs : List Nat}
    (hu : m.uri = some u) (hn : m.name = some n) (hr : m.readme = some bs) :
    (manifestTriples1 m).find? (fun t => t.subj = htmplN u ∧ t.pred = Pred.readme)
      = some ⟨htmplN u, Pred.readme, Node.lit ⟨b64encode bs⟩⟩ := by
  rw [manifestTriples1_eq m hu hn, hr]
  rw [List.find?_append, List.find?_eq_none.mpr ?_, Option.none_or]
  · rw [List.find?_cons_of_pos _ (by simp)]
  · intro t ht
    simp only [List.mem_append] at ht
    simp only [decide_eq_true_eq, not_and]
    intro _
    rcases ht with ((hA | hB) | hC) | hD
    · simp only [List.mem_singleton] at hA
      subst hA
      simp
    · cases hk : extract_config_key m.dirname with
      | none =>
        rw [hk] at hB
        exact absurd hB (by simp)
      | some k =>
        rw [hk] at hB
        simp only [List.mem_singleton] at hB
        subst hB
        simp
    · simp only [List.mem_map] at hC
      rcases hC with ⟨d, _, rfl⟩
      split
      · simp
      · simp
    · cases hh : m.help with
      | none =>
        rw [hh] at hD
        exact absurd hD (by simp)
      | some h0 =>
        rw [hh] at hD
        simp only [List.mem_singleton] at hD
        subst hD
        simp

theorem find_readme_manifestTriples : ∀ (ms : List RawManifest),
    (∀ m ∈ ms, wfManifest m = true) → (ms.filterMap RawManifest.uri).Nodup →
    ∀ m ∈ ms, ∀ {u : String} {bs : List Nat}, m.uri = some u → m.readme = some bs →
    (manifestTriples ms).find? (fun t => t.subj = htmplN u ∧ t.pred = Pred.readme)
      = some ⟨htmplN u, Pred.readme, Node.lit ⟨b64encode bs⟩⟩
  | m0 :: rest, hwf, hnd, m, hm, u, bs, hu, hr => by
    rw [show manifestTriples (m0 :: rest) = manifestTriples1 m0 ++ manifestTriples rest
      from rfl]
    obtain ⟨⟨u0, hu0, _⟩, ⟨n0, hn0, _⟩, _⟩ := wfManifest_parts (hwf m0 (by simp))
    simp only [List.filterMap_cons, hu0] at hnd
    obtain ⟨hu0nm, hndrest⟩ := List.nodup_cons.mp hnd
    rcases List.mem_cons.mp hm with rfl | hmem
    · rw [hu] at hu0
      rw [Option.some.injEq] at hu0
      subst hu0
      rw [List.find?_append, find_readme_manifestTriples1 m hu hn0 hr]
      rfl
    · have hne : u0 ≠ u := by
        intro he
        subst he
        exact hu0nm (List.mem_filterMap.mpr ⟨m, hmem, hu⟩)
      rw [List.find?_append, List.find?_eq_none.mpr ?_, Option.none_or]
      · exact find_readme_manifestTriples rest (fun x hx => hwf x (by simp [hx]))
          hndrest m hmem hu hr
      · intro t ht
        simp only [decide_eq_true_eq, not_and]
        intro hst
        rw [manifestTriples1_subj m0 hu0 hn0 t ht] at hst
        rw [show htmplN u0 = htmplN u ↔ u0 = u by
          constructor
          · intro hx
            exact (Node.uriRef.injEq _ _ _ _).mp hx |>.2
          · intro hx
            rw [hx]] at hst
        exact absurd hst hne

theorem get_readme_build (ms : List RawManifest) (hwf : ∀ m ∈ ms, wfManifest m = true)
    (hnd : (ms.filterMap RawManifest.uri).Nodup) (m : RawManifest) (hm : m ∈ ms)
    {u : String} {bs : List Nat} (hu : m.uri = some u) (hr : m.readme = some bs) :
    get_readme (manifestTriples ms) u = some bs := by
  have hb := (wfManifest_parts (hwf m hm)).2.2.2.2 bs hr
  unfold get_readme attrObj?
  rw [find_readme_manifestTriples ms hwf hnd m hm hu hr, Option.map_some', Option.some_bind]
  exact b64_roundtrip bs hb

/-- C3: serialization loses no information.  Building the TTL text from
well-formed manifests with distinct URIs and parsing it back yields exactly
the statement store of the direct in-memory build (`manifestTriples`), so
`get_deps`, `get_python_deps` and `all_components` answer identically on
the loaded graph and on the in-memory one under any installation overlay;
and the readme bytes of every component — arbitrary content, e.g. markdown
with a fenced code block — survive the base64 encode/decode round-trip
through `get_readme`. -/
theorem build_load_roundtrip (ms : List RawManifest)
    (hwf : ∀ m ∈ ms, wfManifest m = true)
    (hnd : (ms.filterMap RawManifest.uri).Nodup) :
    ∃ lines T, build_component_ttl ms = Except.ok lines ∧
      parseTTL lines = some T ∧
      T = manifestTriples ms ∧
      (∀ fs uri, get_deps (loadGraph T fs) uri
        = get_deps (loadGraph (manifestTriples ms) fs) uri) ∧
      (∀ fs uri, get_python_deps (loadGraph T fs) uri
        = get_python_deps (loadGraph (manifestTriples ms) fs) uri) ∧
      (∀ fs, all_components (loadGraph T fs)
        = all_components (loadGraph (manifestTriples ms) fs)) ∧
      (∀ m ∈ ms, ∀ (u : String) (bs : List Nat), m.uri = some u → m.readme = some bs →
        get_readme T u = some bs) := by
  obtain ⟨body, hbody⟩ := buildBody_ok ms hwf
  have hbuild : build_component_ttl ms = Except.ok (headerLines ++ body) := by
    unfold build_component_ttl
    rw [hbody]
    rfl
  exact ⟨headerLines ++ body, manifestTriples ms, hbuild, parseTTL_build ms hwf hbuild, rfl,
    fun fs uri => rfl, fun fs uri => rfl, fun fs => rfl,
    fun m hm u bs hu hr => get_readme_build ms hwf hnd m hm hu hr⟩

/-- The readme fixture of the test suite: markdown with a fenced code
block, as bytes. -/
def demoAuthReadme : List Nat :=
  ("# Auth Component\n\nProvides login and registration.\n\n" ++
    "```python\nfrom auth import login\n```").data.map Char.toNat

def demoAuth : RawManifest :=
  { dirname := "\x7b% if auth %\x7dauth\x7b% endif %\x7d"
    uri := some "components/auth"
    name := some "auth"
    dependencies := ["htmpl:services/oauth", "python:pyjwt>=2.8.0"]
    help := some "Login and registration forms"
    readme := some demoAuthReadme }

def demoOauth : RawManifest :=
  { dirname := "oauth"
    uri := some "services/oauth"
    name := some "oauth"
    dependencies := ["python:authlib>=1.0"]
    help := none
    readme := none }

theorem build_load_roundtrip_witness :
    ∃ lines T, build_component_ttl [demoAuth, demoOauth] = Except.ok lines ∧
      parseTTL lines = some T ∧
      T = manifestTriples [demoAuth, demoOauth] ∧
      (∀ fs uri, get_deps (loadGraph T fs) uri
        = get_deps (loadGraph (manifestTriples [demoAuth, demoOauth]) fs) uri) ∧
      (∀ fs uri, get_python_deps (loadGraph T fs) uri
        = get_python_deps (loadGraph (manifestTriples [demoAuth, demoOauth]) fs) uri) ∧
      (∀ fs, all_components (loadGraph T fs)
        = all_components (loadGraph (manifestTriples [demoAuth, demoOauth]) fs)) ∧
      (∀ m ∈ [demoAuth, demoOauth], ∀ (u : String) (bs : List Nat),
        m.uri = some u → m.readme = some bs →
        get_readme T u = some bs) :=
  build_load_roundtrip [demoAuth, demoOauth] (by decide) (by decide)

end Htmpl
